import Mathlib

/-!
Verification of the family relationship resolution and generational
tree-layout engine of the LegacyLink family-tree application.

The definitions below are a shallow embedding of:
  * `src/types/FamilyMember.ts` (data model),
  * `src/utils/kinshipMapping.ts` (`getRelationshipLabel` and its helpers),
  * `src/utils/exportService.ts` (`TreeLayoutService.generateTreeLayout`),
  * the `RelationshipMapper` component (`generateRelationshipMap` /
    `assignGeneration`).
TypeScript numbers used for coordinates are embedded as rationals (all
arithmetic performed on them is exact), generations as integers, and the
recursive traversals are given explicit fuel; theorems establish that the
chosen fuel is always sufficient.
-/

/-- Gender of a member, from `FamilyMember.gender` in
`src/types/FamilyMember.ts`: `"male" | "female" | "other"`. -/
inductive Gender where
  | male
  | female
  | other
deriving DecidableEq

/-- The four relationship edge lists of a member
(`FamilyMember.relationships`). -/
structure Relationships where
  parents : List String
  siblings : List String
  spouses : List String
  children : List String
deriving DecidableEq

/-- A member of the family roster (`FamilyMember` in
`src/types/FamilyMember.ts`); payload fields irrelevant to the algorithms
(photo, biography, dates, ...) are omitted. -/
structure FamilyMember where
  id : String
  name : String
  gender : Gender
  relationships : Relationships
deriving DecidableEq

/-- Result of the kinship resolver (`RelationshipLabel` in
`src/utils/kinshipMapping.ts`). -/
structure RelationshipLabel where
  relationship : String
  description : String
deriving DecidableEq

/-- Lookup of a member by id, as `allMembers.find(m => m.id === id)` /
`memberMap.get(id)` in the source. -/
def lookupMember (members : List FamilyMember) (id : String) : Option FamilyMember :=
  members.find? (fun m => m.id == id)

/-- Gendered label selection, the three-way conditional on the gender
(masculine, feminine, neutral term) used at each rule of
`src/utils/kinshipMapping.ts`. -/
def genderedLabel (g : Gender) (m f n desc : String) : RelationshipLabel :=
  match g with
  | .male => ⟨m, desc⟩
  | .female => ⟨f, desc⟩
  | .other => ⟨n, desc⟩

/-- Grandparent rule of `getExtendedRelationship`
(`src/utils/kinshipMapping.ts` lines 72-80): some parent of `relativeTo`
lists `person` as its own parent. -/
def grandparentCheck (person relativeTo : FamilyMember) (members : List FamilyMember) : Bool :=
  relativeTo.relationships.parents.any fun parentId =>
    match lookupMember members parentId with
    | some parent => parent.relationships.parents.contains person.id
    | none => false

/-- Grandchild rule (`src/utils/kinshipMapping.ts` lines 83-91). -/
def grandchildCheck (person relativeTo : FamilyMember) (members : List FamilyMember) : Bool :=
  relativeTo.relationships.children.any fun childId =>
    match lookupMember members childId with
    | some child => child.relationships.children.contains person.id
    | none => false

/-- Aunt/uncle rule (`src/utils/kinshipMapping.ts` lines 94-102): `person`
is a sibling of one of the parents of `relativeTo`. -/
def auntUncleCheck (person relativeTo : FamilyMember) (members : List FamilyMember) : Bool :=
  relativeTo.relationships.parents.any fun parentId =>
    match lookupMember members parentId with
    | some parent => parent.relationships.siblings.contains person.id
    | none => false

/-- Nephew/niece rule (`src/utils/kinshipMapping.ts` lines 105-113):
`person` is a child of one of the siblings of `relativeTo`. -/
def nephewNieceCheck (person relativeTo : FamilyMember) (members : List FamilyMember) : Bool :=
  relativeTo.relationships.siblings.any fun siblingId =>
    match lookupMember members siblingId with
    | some sibling => sibling.relationships.children.contains person.id
    | none => false

/-- Cousin rule (`src/utils/kinshipMapping.ts` lines 116-129): `person` is
a child of a sibling of one of the parents of `relativeTo`. -/
def cousinCheck (person relativeTo : FamilyMember) (members : List FamilyMember) : Bool :=
  relativeTo.relationships.parents.any fun parentId =>
    match lookupMember members parentId with
    | some parent =>
      parent.relationships.siblings.any fun parentSiblingId =>
        match lookupMember members parentSiblingId with
        | some parentSibling => parentSibling.relationships.children.contains person.id
        | none => false
    | none => false

/-- First in-law scan of `getInLawRelationship`
(`src/utils/kinshipMapping.ts` lines 151-170): for each spouse of
`relativeTo` in order, the parents of the spouse are checked before the
siblings of the spouse; the first hit determines the label. -/
def spouseInLawScan (person relativeTo : FamilyMember) (members : List FamilyMember) :
    Option RelationshipLabel :=
  relativeTo.relationships.spouses.findSome? fun spouseId =>
    match lookupMember members spouseId with
    | some spouse =>
      if spouse.relationships.parents.contains person.id then
        some (genderedLabel person.gender "Father-in-law" "Mother-in-law" "Parent-in-law"
          "Spouse\x27s parent")
      else if spouse.relationships.siblings.contains person.id then
        some (genderedLabel person.gender "Brother-in-law" "Sister-in-law" "Sibling-in-law"
          "Spouse\x27s sibling")
      else none
    | none => none

/-- Second in-law rule (`src/utils/kinshipMapping.ts` lines 173-181):
`person` is married to one of the siblings of `relativeTo`. -/
def siblingSpouseCheck (person relativeTo : FamilyMember) (members : List FamilyMember) : Bool :=
  relativeTo.relationships.siblings.any fun siblingId =>
    match lookupMember members siblingId with
    | some sibling => sibling.relationships.spouses.contains person.id
    | none => false

/-- Embedding of `getInLawRelationship` (`src/utils/kinshipMapping.ts` lines 143-184). -/
def getInLawRelationship (person relativeTo : FamilyMember) (members : List FamilyMember) :
    Option RelationshipLabel :=
  match spouseInLawScan person relativeTo members with
  | some lbl => some lbl
  | none =>
    if siblingSpouseCheck person relativeTo members then
      some (genderedLabel person.gender "Brother-in-law" "Sister-in-law" "Sibling-in-law"
        "Sibling\x27s spouse")
    else none

/-- Embedding of `getExtendedRelationship` (`src/utils/kinshipMapping.ts` lines
64-138): extended rules in source order, first match wins.  Within each of
the first five rules the label does not depend on which list element
matched, so the return-on-first-hit loops of the source are embedded as `any`
over the same list in the same order. -/
def getExtendedRelationship (person relativeTo : FamilyMember) (members : List FamilyMember) :
    Option RelationshipLabel :=
  if grandparentCheck person relativeTo members then
    some (genderedLabel person.gender "Grandfather" "Grandmother" "Grandparent" "Grandparent")
  else if grandchildCheck person relativeTo members then
    some (genderedLabel person.gender "Grandson" "Granddaughter" "Grandchild" "Grandchild")
  else if auntUncleCheck person relativeTo members then
    some (genderedLabel person.gender "Uncle" "Aunt" "Aunt/Uncle" "Parent\x27s sibling")
  else if nephewNieceCheck person relativeTo members then
    some (genderedLabel person.gender "Nephew" "Niece" "Nephew/Niece" "Sibling\x27s child")
  else if cousinCheck person relativeTo members then
    some ⟨"Cousin", "Parent\x27s sibling\x27s child"⟩
  else getInLawRelationship person relativeTo members

/-- Embedding of `getRelationshipLabel` (`src/utils/kinshipMapping.ts` lines 15-59):
the four direct rules in order, then the extended rules, then the
fallback. -/
def getRelationshipLabel (person relativeTo : FamilyMember) (members : List FamilyMember) :
    RelationshipLabel :=
  if relativeTo.relationships.parents.contains person.id then
    genderedLabel person.gender "Father" "Mother" "Parent" "Parent"
  else if relativeTo.relationships.children.contains person.id then
    genderedLabel person.gender "Son" "Daughter" "Child" "Child"
  else if relativeTo.relationships.spouses.contains person.id then
    genderedLabel person.gender "Husband" "Wife" "Spouse" "Spouse"
  else if relativeTo.relationships.siblings.contains person.id then
    genderedLabel person.gender "Brother" "Sister" "Sibling" "Sibling"
  else
    match getExtendedRelationship person relativeTo members with
    | some r => r
    | none => ⟨"Family Member", "Related"⟩

/-- Specification-side rendering of the four direct-edge rules, written
from the words of the spec ("Direct edges: is `person` in `relativeTo.parents`?
-> Parent (gendered). In `.children`? -> Child. In `.spouses`? -> Spouse.
In `.siblings`? -> Sibling", checked in that order, first match wins),
for comparison against the implementation. -/
def specDirectRules (person relativeTo : FamilyMember) : Option RelationshipLabel :=
  if relativeTo.relationships.parents.contains person.id then
    some (genderedLabel person.gender "Father" "Mother" "Parent" "Parent")
  else if relativeTo.relationships.children.contains person.id then
    some (genderedLabel person.gender "Son" "Daughter" "Child" "Child")
  else if relativeTo.relationships.spouses.contains person.id then
    some (genderedLabel person.gender "Husband" "Wife" "Spouse" "Spouse")
  else if relativeTo.relationships.siblings.contains person.id then
    some (genderedLabel person.gender "Brother" "Sister" "Sibling" "Sibling")
  else none

/-- List of member ids of a roster. -/
def memberIds (members : List FamilyMember) : List String :=
  members.map (·.id)

/-- Bounded ancestor test along `parents` edges: `y` is reachable from `x`
in at least one and at most `fuel` parent steps. -/
def isAncestorWithin (members : List FamilyMember) : Nat → String → String → Bool
  | 0, _, _ => false
  | fuel+1, x, y =>
    members.any fun m =>
      m.id == x && m.relationships.parents.any fun p =>
        p == y || isAncestorWithin members fuel p y

/-- No member of the roster is its own ancestor through `parents` edges
(the acyclicity invariant assumed by the spec). -/
def acyclicParents (members : List FamilyMember) : Prop :=
  ∀ m ∈ members, isAncestorWithin members members.length m.id m.id = false

/-- Parent/child edge symmetry, as assumed by the spec: A lists B as a
child exactly when B lists A as a parent. -/
def parentChildSymmetric (members : List FamilyMember) : Prop :=
  ∀ a ∈ members, ∀ b ∈ members,
    (b.id ∈ a.relationships.children ↔ a.id ∈ b.relationships.parents)

/-- Spouse edge symmetry. -/
def spousesSymmetric (members : List FamilyMember) : Prop :=
  ∀ a ∈ members, ∀ b ∈ members,
    (b.id ∈ a.relationships.spouses ↔ a.id ∈ b.relationships.spouses)

/-- Sibling edge symmetry. -/
def siblingsSymmetric (members : List FamilyMember) : Prop :=
  ∀ a ∈ members, ∀ b ∈ members,
    (b.id ∈ a.relationships.siblings ↔ a.id ∈ b.relationships.siblings)

/-- Well-formed roster, per the invariants the spec assumes: unique ids,
symmetric edges, and acyclic parent/child edges. -/
def WellFormedRoster (members : List FamilyMember) : Prop :=
  (memberIds members).Nodup ∧ parentChildSymmetric members ∧
    spousesSymmetric members ∧ siblingsSymmetric members ∧ acyclicParents members

instance (members : List FamilyMember) : Decidable (acyclicParents members) := by
  unfold acyclicParents; infer_instance

instance (members : List FamilyMember) : Decidable (WellFormedRoster members) := by
  unfold WellFormedRoster parentChildSymmetric spousesSymmetric siblingsSymmetric
  infer_instance

/- ### Helper lemmas about the kinship resolver -/

theorem isAncestorWithin_mono (members : List FamilyMember) :
    ∀ {n m : Nat} {x y : String}, n ≤ m →
      isAncestorWithin members n x y = true → isAncestorWithin members m x y = true := by
  intro n
  induction n with
  | zero => intro m x y _ h; simp [isAncestorWithin] at h
  | succ k ih =>
    intro m x y hnm h
    obtain ⟨m', rfl⟩ : ∃ m', m = m' + 1 := ⟨m - 1, by omega⟩
    simp only [isAncestorWithin, List.any_eq_true, Bool.and_eq_true, beq_iff_eq,
      Bool.or_eq_true] at h ⊢
    obtain ⟨mem, hmem, hid, p, hp, hor⟩ := h
    refine ⟨mem, hmem, hid, p, hp, ?_⟩
    rcases hor with h1 | h2
    · exact Or.inl h1
    · exact Or.inr (ih (by omega) h2)

theorem two_le_length_of_mem_ne {α : Type} {a b : α} {l : List α}
    (ha : a ∈ l) (hb : b ∈ l) (hne : a ≠ b) : 2 ≤ l.length := by
  induction l with
  | nil => simp at ha
  | cons x xs ih =>
    rcases List.mem_cons.mp ha with rfl | ha'
    · rcases List.mem_cons.mp hb with rfl | hb'
      · exact absurd rfl hne
      · have : 1 ≤ xs.length := List.length_pos.mpr (List.ne_nil_of_mem hb')
        simp only [List.length_cons]; omega
    · have : 1 ≤ xs.length := List.length_pos.mpr (List.ne_nil_of_mem ha')
      simp only [List.length_cons]; omega

theorem eq_of_mem_nodup_ids {members : List FamilyMember}
    (hnd : (memberIds members).Nodup) {a b : FamilyMember}
    (ha : a ∈ members) (hb : b ∈ members) (hid : a.id = b.id) : a = b := by
  unfold memberIds at hnd
  induction members with
  | nil => simp at ha
  | cons x xs ih =>
    simp only [List.map_cons, List.nodup_cons] at hnd
    rcases List.mem_cons.mp ha with rfl | ha'
    · rcases List.mem_cons.mp hb with rfl | hb'
      · rfl
      · exact absurd (hid ▸ List.mem_map_of_mem (·.id) hb') hnd.1
    · rcases List.mem_cons.mp hb with rfl | hb'
      · exact absurd (hid ▸ List.mem_map_of_mem (·.id) ha') hnd.1
      · exact ih hnd.2 ha' hb'

theorem no_parent_two_cycle {members : List FamilyMember}
    (hnd : (memberIds members).Nodup) (hacy : acyclicParents members)
    {a b : FamilyMember} (ha : a ∈ members) (hb : b ∈ members)
    (hab : b.id ∈ a.relationships.parents) (hba : a.id ∈ b.relationships.parents) : False := by
  by_cases hid : a.id = b.id
  · -- then a = b and a is its own parent: a one-step cycle
    have hab' : a.id ∈ a.relationships.parents := by
      have : a = b := eq_of_mem_nodup_ids hnd ha hb hid
      rw [this]; exact hid ▸ hba
    have h1 : isAncestorWithin members 1 a.id a.id = true := by
      simp only [isAncestorWithin, List.any_eq_true, Bool.and_eq_true, beq_iff_eq,
        Bool.or_eq_true]
      exact ⟨a, ha, rfl, a.id, hab', Or.inl rfl⟩
    have hlen : 1 ≤ members.length := List.length_pos.mpr (List.ne_nil_of_mem ha)
    have := isAncestorWithin_mono members hlen h1
    exact absurd this (by simp [hacy a ha])
  · have hne : a ≠ b := fun h => hid (h ▸ rfl)
    have h2 : isAncestorWithin members 2 a.id a.id = true := by
      simp only [isAncestorWithin, List.any_eq_true, Bool.and_eq_true, beq_iff_eq,
        Bool.or_eq_true]
      refine ⟨a, ha, rfl, b.id, hab, Or.inr ?_⟩
      exact ⟨b, hb, rfl, a.id, hba, Or.inl rfl⟩
    have hlen : 2 ≤ members.length := two_le_length_of_mem_ne ha hb hne
    have := isAncestorWithin_mono members hlen h2
    exact absurd this (by simp [hacy a ha])

/- ### Claim C3 -/

/-- C3: the kinship resolver checks its rules in strict priority order
with first match winning; whenever one of the four direct-edge rules (as
the spec states them, in the order and with the gendered
labels) yields a label, `getRelationshipLabel` returns exactly that label,
regardless of the extended rules. -/
theorem kinship_direct_rules_priority
    (person relativeTo : FamilyMember) (members : List FamilyMember)
    (lbl : RelationshipLabel)
    (h : specDirectRules person relativeTo = some lbl) :
    getRelationshipLabel person relativeTo members = lbl := by
  unfold specDirectRules at h
  unfold getRelationshipLabel
  split at h
  · rw [if_pos (by assumption)]; exact Option.some_injective _ h
  · split at h
    · rw [if_neg (by assumption), if_pos (by assumption)]
      exact Option.some_injective _ h
    · split at h
      · rw [if_neg (by assumption), if_neg (by assumption), if_pos (by assumption)]
        exact Option.some_injective _ h
      · split at h
        · rw [if_neg (by assumption), if_neg (by assumption), if_neg (by assumption),
            if_pos (by assumption)]
          exact Option.some_injective _ h
        · exact absurd h (by simp)

/-- Witness for C3 at a concrete input: Alice is listed in the `parents`
of Bob, and the resolver returns "Mother". -/
theorem kinship_direct_rules_priority_witness :
    specDirectRules
        ⟨"alice", "Alice", .female, ⟨[], [], [], ["bob"]⟩⟩
        ⟨"bob", "Bob", .male, ⟨["alice"], [], [], []⟩⟩ =
      some ⟨"Mother", "Parent"⟩ ∧
    getRelationshipLabel
        ⟨"alice", "Alice", .female, ⟨[], [], [], ["bob"]⟩⟩
        ⟨"bob", "Bob", .male, ⟨["alice"], [], [], []⟩⟩
        [⟨"alice", "Alice", .female, ⟨[], [], [], ["bob"]⟩⟩,
         ⟨"bob", "Bob", .male, ⟨["alice"], [], [], []⟩⟩] =
      ⟨"Mother", "Parent"⟩ :=
  ⟨by decide, kinship_direct_rules_priority _ _ _ _ (by decide)⟩

/- ### Claim C4 -/

/-- C4: in a well-formed roster (symmetric edges, acyclic parent/child
edges, unique ids), if B is in the `children` of A then resolving A relative to
B yields a Parent label and resolving B relative to A yields a Child
label. -/
theorem kinship_parent_child_round_trip
    (members : List FamilyMember) (a b : FamilyMember)
    (hwf : WellFormedRoster members) (ha : a ∈ members) (hb : b ∈ members)
    (hchild : b.id ∈ a.relationships.children) :
    (getRelationshipLabel a b members).description = "Parent" ∧
    (getRelationshipLabel b a members).description = "Child" := by
  obtain ⟨hnd, hpc, _, _, hacy⟩ := hwf
  have hparent : a.id ∈ b.relationships.parents := (hpc a ha b hb).mp hchild
  constructor
  · have hc : b.relationships.parents.contains a.id = true := by
      simpa using hparent
    unfold getRelationshipLabel
    rw [if_pos hc]
    cases a.gender <;> rfl
  · have hnp : b.id ∉ a.relationships.parents := fun hmem =>
      no_parent_two_cycle hnd hacy ha hb hmem hparent
    have hc1 : a.relationships.parents.contains b.id = false := by
      simpa using hnp
    have hc2 : a.relationships.children.contains b.id = true := by
      simpa using hchild
    unfold getRelationshipLabel
    rw [if_neg (by simpa using hnp), if_pos hc2]
    cases b.gender <;> rfl

/-- Witness for C4: the two-member roster Alice (child list contains Bob)
and Bob (parent list contains Alice), fully symmetric and acyclic. -/
theorem kinship_parent_child_round_trip_witness :
    WellFormedRoster
        [⟨"alice", "Alice", .female, ⟨[], [], [], ["bob"]⟩⟩,
         ⟨"bob", "Bob", .male, ⟨["alice"], [], [], []⟩⟩] ∧
    (getRelationshipLabel
        ⟨"alice", "Alice", .female, ⟨[], [], [], ["bob"]⟩⟩
        ⟨"bob", "Bob", .male, ⟨["alice"], [], [], []⟩⟩
        [⟨"alice", "Alice", .female, ⟨[], [], [], ["bob"]⟩⟩,
         ⟨"bob", "Bob", .male, ⟨["alice"], [], [], []⟩⟩]).description = "Parent" ∧
    (getRelationshipLabel
        ⟨"bob", "Bob", .male, ⟨["alice"], [], [], []⟩⟩
        ⟨"alice", "Alice", .female, ⟨[], [], [], ["bob"]⟩⟩
        [⟨"alice", "Alice", .female, ⟨[], [], [], ["bob"]⟩⟩,
         ⟨"bob", "Bob", .male, ⟨["alice"], [], [], []⟩⟩]).description = "Child" := by
  refine ⟨by decide, ?_⟩
  exact kinship_parent_child_round_trip _ _ _ (by decide) (by decide) (by decide) (by decide)

/- ### Claim C7 -/

/-- C7: the kinship resolver is total (the embedding is a total function
for arbitrary inputs, including absent or dangling edge ids), and when
none of the rules matches the result is exactly the fallback label
"Family Member" with description "Related". -/
theorem kinship_fallback_total
    (person relativeTo : FamilyMember) (members : List FamilyMember)
    (h1 : person.id ∉ relativeTo.relationships.parents)
    (h2 : person.id ∉ relativeTo.relationships.children)
    (h3 : person.id ∉ relativeTo.relationships.spouses)
    (h4 : person.id ∉ relativeTo.relationships.siblings)
    (h5 : grandparentCheck person relativeTo members = false)
    (h6 : grandchildCheck person relativeTo members = false)
    (h7 : auntUncleCheck person relativeTo members = false)
    (h8 : nephewNieceCheck person relativeTo members = false)
    (h9 : cousinCheck person relativeTo members = false)
    (h10 : spouseInLawScan person relativeTo members = none)
    (h11 : siblingSpouseCheck person relativeTo members = false) :
    getRelationshipLabel person relativeTo members = ⟨"Family Member", "Related"⟩ := by
  unfold getRelationshipLabel getExtendedRelationship getInLawRelationship
  simp [h1, h2, h3, h4, h5, h6, h7, h8, h9, h10, h11]

/-- Witness for C7: two members connected by nothing (one even carries a
dangling parent id that matches no roster member), resolving to the
fallback label. -/
theorem kinship_fallback_total_witness :
    getRelationshipLabel
        ⟨"carol", "Carol", .female, ⟨["ghost"], [], [], []⟩⟩
        ⟨"dave", "Dave", .male, ⟨["ghost"], [], [], []⟩⟩
        [⟨"carol", "Carol", .female, ⟨["ghost"], [], [], []⟩⟩,
         ⟨"dave", "Dave", .male, ⟨["ghost"], [], [], []⟩⟩] =
      ⟨"Family Member", "Related"⟩ :=
  kinship_fallback_total _ _ _ (by decide) (by decide) (by decide) (by decide) (by decide)
    (by decide) (by decide) (by decide) (by decide) (by decide) (by decide)

/- ### Claim C9 -/

/-- Rosters that agree everywhere except possibly on the relationship
lists of entries whose id is `pid` (ids and genders agree pointwise;
entries with any other id are identical). -/
def AgreeExceptEdges (pid : String) (r1 r2 : List FamilyMember) : Prop :=
  List.Forall₂ (fun a b => a.id = b.id ∧ a.gender = b.gender ∧ (a.id ≠ pid → a = b)) r1 r2

theorem lookupMember_agree {pid : String} {r1 r2 : List FamilyMember}
    (h : AgreeExceptEdges pid r1 r2) {x : String} (hx : x ≠ pid) :
    lookupMember r1 x = lookupMember r2 x := by
  induction h with
  | nil => rfl
  | @cons a b l1 l2 hab _ ih =>
    obtain ⟨hid, _, heq⟩ := hab
    unfold lookupMember at *
    by_cases hax : a.id = x
    · have hbx : b.id = x := hid ▸ hax
      have hae : a = b := heq fun hpid => hx (hax ▸ hpid)
      simp [List.find?_cons, hax, hbx, hae]
    · have hbx : ¬b.id = x := hid ▸ hax
      simpa [List.find?_cons, hax, hbx] using ih

theorem list_any_congr {α : Type} {l : List α} {f g : α → Bool}
    (h : ∀ x ∈ l, f x = g x) : l.any f = l.any g := by
  induction l with
  | nil => rfl
  | cons a l ih =>
    simp only [List.any_cons, h a (List.mem_cons_self a l),
      ih fun x hx => h x (List.mem_cons_of_mem a hx)]

theorem list_findSome?_congr {α β : Type} {l : List α} {f g : α → Option β}
    (h : ∀ x ∈ l, f x = g x) : l.findSome? f = l.findSome? g := by
  induction l with
  | nil => rfl
  | cons a l ih =>
    rw [List.findSome?_cons, List.findSome?_cons, h a (List.mem_cons_self a l)]
    cases g a with
    | some b => rfl
    | none => exact ih fun x hx => h x (List.mem_cons_of_mem a hx)

theorem grandparentCheck_agree {p1 p2 relativeTo : FamilyMember} {r1 r2 : List FamilyMember}
    (hid : p1.id = p2.id) (h : AgreeExceptEdges p1.id r1 r2)
    (hnp : p1.id ∉ relativeTo.relationships.parents) :
    grandparentCheck p1 relativeTo r1 = grandparentCheck p2 relativeTo r2 := by
  unfold grandparentCheck
  apply list_any_congr
  intro parentId hpar
  have hne : parentId ≠ p1.id := fun e => hnp (e ▸ hpar)
  rw [← lookupMember_agree h hne]
  cases lookupMember r1 parentId with
  | none => rfl
  | some parent => rw [hid]

theorem grandchildCheck_agree {p1 p2 relativeTo : FamilyMember} {r1 r2 : List FamilyMember}
    (hid : p1.id = p2.id) (h : AgreeExceptEdges p1.id r1 r2)
    (hnc : p1.id ∉ relativeTo.relationships.children) :
    grandchildCheck p1 relativeTo r1 = grandchildCheck p2 relativeTo r2 := by
  unfold grandchildCheck
  apply list_any_congr
  intro childId hch
  have hne : childId ≠ p1.id := fun e => hnc (e ▸ hch)
  rw [← lookupMember_agree h hne]
  cases lookupMember r1 childId with
  | none => rfl
  | some child => rw [hid]

theorem auntUncleCheck_agree {p1 p2 relativeTo : FamilyMember} {r1 r2 : List FamilyMember}
    (hid : p1.id = p2.id) (h : AgreeExceptEdges p1.id r1 r2)
    (hnp : p1.id ∉ relativeTo.relationships.parents) :
    auntUncleCheck p1 relativeTo r1 = auntUncleCheck p2 relativeTo r2 := by
  unfold auntUncleCheck
  apply list_any_congr
  intro parentId hpar
  have hne : parentId ≠ p1.id := fun e => hnp (e ▸ hpar)
  rw [← lookupMember_agree h hne]
  cases lookupMember r1 parentId with
  | none => rfl
  | some parent => rw [hid]

theorem nephewNieceCheck_agree {p1 p2 relativeTo : FamilyMember} {r1 r2 : List FamilyMember}
    (hid : p1.id = p2.id) (h : AgreeExceptEdges p1.id r1 r2)
    (hns : p1.id ∉ relativeTo.relationships.siblings) :
    nephewNieceCheck p1 relativeTo r1 = nephewNieceCheck p2 relativeTo r2 := by
  unfold nephewNieceCheck
  apply list_any_congr
  intro siblingId hsib
  have hne : siblingId ≠ p1.id := fun e => hns (e ▸ hsib)
  rw [← lookupMember_agree h hne]
  cases lookupMember r1 siblingId with
  | none => rfl
  | some sibling => rw [hid]

theorem siblingSpouseCheck_agree {p1 p2 relativeTo : FamilyMember} {r1 r2 : List FamilyMember}
    (hid : p1.id = p2.id) (h : AgreeExceptEdges p1.id r1 r2)
    (hns : p1.id ∉ relativeTo.relationships.siblings) :
    siblingSpouseCheck p1 relativeTo r1 = siblingSpouseCheck p2 relativeTo r2 := by
  unfold siblingSpouseCheck
  apply list_any_congr
  intro siblingId hsib
  have hne : siblingId ≠ p1.id := fun e => hns (e ▸ hsib)
  rw [← lookupMember_agree h hne]
  cases lookupMember r1 siblingId with
  | none => rfl
  | some sibling => rw [hid]

theorem spouseInLawScan_agree {p1 p2 relativeTo : FamilyMember} {r1 r2 : List FamilyMember}
    (hid : p1.id = p2.id) (hg : p1.gender = p2.gender) (h : AgreeExceptEdges p1.id r1 r2)
    (hnsp : p1.id ∉ relativeTo.relationships.spouses) :
    spouseInLawScan p1 relativeTo r1 = spouseInLawScan p2 relativeTo r2 := by
  unfold spouseInLawScan
  apply list_findSome?_congr
  intro spouseId hsp
  have hne : spouseId ≠ p1.id := fun e => hnsp (e ▸ hsp)
  rw [← lookupMember_agree h hne]
  cases lookupMember r1 spouseId with
  | none => rfl
  | some spouse => rw [hid, hg]

theorem cousinCheck_agree {p1 p2 relativeTo : FamilyMember} {r1 r2 : List FamilyMember}
    (hid : p1.id = p2.id) (h : AgreeExceptEdges p1.id r1 r2)
    (hnp : p1.id ∉ relativeTo.relationships.parents)
    (hau : auntUncleCheck p1 relativeTo r1 = false) :
    cousinCheck p1 relativeTo r1 = cousinCheck p2 relativeTo r2 := by
  unfold cousinCheck
  apply list_any_congr
  intro parentId hpar
  have hne : parentId ≠ p1.id := fun e => hnp (e ▸ hpar)
  rw [← lookupMember_agree h hne]
  cases hl : lookupMember r1 parentId with
  | none => rfl
  | some parent =>
    apply list_any_congr
    intro psId hps
    have hpsne : psId ≠ p1.id := by
      intro e
      have htrue : auntUncleCheck p1 relativeTo r1 = true := by
        unfold auntUncleCheck
        rw [List.any_eq_true]
        refine ⟨parentId, hpar, ?_⟩
        rw [hl]
        simpa using (e ▸ hps)
      rw [htrue] at hau
      exact absurd hau (by decide)
    rw [← lookupMember_agree h hpsne]
    cases lookupMember r1 psId with
    | none => rfl
    | some ps => rw [hid]

theorem getExtendedRelationship_agree
    {p1 p2 relativeTo : FamilyMember} {r1 r2 : List FamilyMember}
    (hid : p1.id = p2.id) (hg : p1.gender = p2.gender) (h : AgreeExceptEdges p1.id r1 r2)
    (c1 : p1.id ∉ relativeTo.relationships.parents)
    (c3 : p1.id ∉ relativeTo.relationships.spouses)
    (c4 : p1.id ∉ relativeTo.relationships.siblings)
    (c2 : p1.id ∉ relativeTo.relationships.children) :
    getExtendedRelationship p1 relativeTo r1 = getExtendedRelationship p2 relativeTo r2 := by
  have e5 := grandparentCheck_agree hid h c1
  have e6 := grandchildCheck_agree hid h c2
  have e7 := auntUncleCheck_agree hid h c1
  have e8 := nephewNieceCheck_agree hid h c4
  have e10 := spouseInLawScan_agree hid hg h c3
  have e11 := siblingSpouseCheck_agree hid h c4
  unfold getExtendedRelationship getInLawRelationship
  rw [← e5, ← e6, ← e7, ← e8, ← e10, ← e11]
  by_cases h5 : grandparentCheck p1 relativeTo r1 = true
  · simp [h5, hg]
  · rw [if_neg h5, if_neg h5]
    by_cases h6 : grandchildCheck p1 relativeTo r1 = true
    · simp [h6, hg]
    · rw [if_neg h6, if_neg h6]
      by_cases h7 : auntUncleCheck p1 relativeTo r1 = true
      · simp [h7, hg]
      · rw [if_neg h7, if_neg h7]
        by_cases h8 : nephewNieceCheck p1 relativeTo r1 = true
        · simp [h8, hg]
        · rw [if_neg h8, if_neg h8]
          have e9 := cousinCheck_agree hid h c1 ((Bool.not_eq_true _).mp h7)
          rw [← e9]
          by_cases h9 : cousinCheck p1 relativeTo r1 = true
          · simp [h9]
          · rw [if_neg h9, if_neg h9]
            cases spouseInLawScan p1 relativeTo r1 with
            | some lbl => rfl
            | none =>
              by_cases h11 : siblingSpouseCheck p1 relativeTo r1 = true
              · simp [h11, hg]
              · rw [if_neg h11, if_neg h11]

/-- C9: the result of the kinship resolver never depends on the own
relationship lists of the person.  For any two rosters identical except
for the relationship lists of the entries carrying the id of the person
(and any two
person values sharing that id and gender), resolving relative to the same
`relativeTo` yields the same label. -/
theorem kinship_noninterference_person_edges
    (p1 p2 relativeTo : FamilyMember) (r1 r2 : List FamilyMember)
    (hid : p1.id = p2.id) (hg : p1.gender = p2.gender)
    (h : AgreeExceptEdges p1.id r1 r2) :
    getRelationshipLabel p1 relativeTo r1 = getRelationshipLabel p2 relativeTo r2 := by
  unfold getRelationshipLabel
  rw [← hid, ← hg]
  by_cases c1 : relativeTo.relationships.parents.contains p1.id = true
  · rw [if_pos c1, if_pos c1]
  · rw [if_neg c1, if_neg c1]
    by_cases c2 : relativeTo.relationships.children.contains p1.id = true
    · rw [if_pos c2, if_pos c2]
    · rw [if_neg c2, if_neg c2]
      by_cases c3 : relativeTo.relationships.spouses.contains p1.id = true
      · rw [if_pos c3, if_pos c3]
      · rw [if_neg c3, if_neg c3]
        by_cases c4 : relativeTo.relationships.siblings.contains p1.id = true
        · rw [if_pos c4, if_pos c4]
        · rw [if_neg c4, if_neg c4]
          rw [getExtendedRelationship_agree hid hg h (by simpa using c1)
            (by simpa using c3) (by simpa using c4) (by simpa using c2)]

/-- Witness for C9: the own relationship lists of Eve are emptied in one roster
and filled with junk edges in the other; resolving Eve relative to Bob
(whose parent list names Eve) gives "Mother" in both runs. -/
theorem kinship_noninterference_person_edges_witness :
    ((⟨"eve", "Eve", .female, ⟨[], [], [], []⟩⟩ : FamilyMember).id =
        (⟨"eve", "Eve", .female, ⟨["x"], ["y"], ["z"], ["w"]⟩⟩ : FamilyMember).id ∧
      (⟨"eve", "Eve", .female, ⟨[], [], [], []⟩⟩ : FamilyMember).gender =
        (⟨"eve", "Eve", .female, ⟨["x"], ["y"], ["z"], ["w"]⟩⟩ : FamilyMember).gender ∧
      AgreeExceptEdges "eve"
        [⟨"eve", "Eve", .female, ⟨[], [], [], []⟩⟩,
         ⟨"bob", "Bob", .male, ⟨["eve"], [], [], []⟩⟩]
        [⟨"eve", "Eve", .female, ⟨["x"], ["y"], ["z"], ["w"]⟩⟩,
         ⟨"bob", "Bob", .male, ⟨["eve"], [], [], []⟩⟩]) ∧
    getRelationshipLabel
        ⟨"eve", "Eve", .female, ⟨[], [], [], []⟩⟩
        ⟨"bob", "Bob", .male, ⟨["eve"], [], [], []⟩⟩
        [⟨"eve", "Eve", .female, ⟨[], [], [], []⟩⟩,
         ⟨"bob", "Bob", .male, ⟨["eve"], [], [], []⟩⟩] =
      getRelationshipLabel
        ⟨"eve", "Eve", .female, ⟨["x"], ["y"], ["z"], ["w"]⟩⟩
        ⟨"bob", "Bob", .male, ⟨["eve"], [], [], []⟩⟩
        [⟨"eve", "Eve", .female, ⟨["x"], ["y"], ["z"], ["w"]⟩⟩,
         ⟨"bob", "Bob", .male, ⟨["eve"], [], [], []⟩⟩] := by
  refine ⟨⟨rfl, rfl, ?_⟩, ?_⟩
  · exact List.Forall₂.cons ⟨rfl, rfl, fun hne => absurd rfl hne⟩
      (List.Forall₂.cons ⟨rfl, rfl, fun _ => rfl⟩ List.Forall₂.nil)
  · exact kinship_noninterference_person_edges _ _ _ _ _ rfl rfl
      (List.Forall₂.cons ⟨rfl, rfl, fun hne => absurd rfl hne⟩
        (List.Forall₂.cons ⟨rfl, rfl, fun _ => rfl⟩ List.Forall₂.nil))

/- ### Tree layout (`TreeLayoutService.generateTreeLayout`,
`src/utils/exportService.ts` lines 569-655) -/

/-- Connection kind of `TreeConnection` in `src/types/FamilyMember.ts`. -/
inductive TreeConnType where
  | parent
  | spouse
  | sibling
deriving DecidableEq

/-- A laid-out node (`TreeNode` in `src/types/FamilyMember.ts`);
coordinates are rationals since all arithmetic performed on them is
exact. -/
structure TreeNode where
  id : String
  member : FamilyMember
  x : Rat
  y : Rat
  generation : Nat
deriving DecidableEq

/-- An edge to draw (`TreeConnection` in `src/types/FamilyMember.ts`);
the `from` field is called `src` because `from` is reserved in Lean. -/
structure TreeConnection where
  src : String
  dst : String
  type : TreeConnType
deriving DecidableEq

/-- Layout constant `nodeWidth = 120`. -/
def nodeWidth : Rat := 120

/-- Layout constant `nodeHeight = 160`. -/
def nodeHeight : Rat := 160

/-- Layout constant `horizontalSpacing = 40`. -/
def horizontalSpacing : Rat := 40

/-- Layout constant `verticalSpacing = 80`. -/
def verticalSpacing : Rat := 80

/-- State of the generation-by-generation while loop of
`generateTreeLayout`. -/
structure LayoutState where
  nodes : List TreeNode
  visited : List String
  worklist : List String
  generation : Nat
  currentY : Rat
deriving DecidableEq

/-- The `validMembers` array of `processGeneration`
(`src/utils/exportService.ts` lines 594-596): the worklist ids resolved
against the roster, dropping unknown ids and ids already visited.  The
visited set is the one of the start of the call, exactly as the source
computes the whole filtered array before pushing any node. -/
def validMembersOf (members : List FamilyMember) (st : LayoutState) : List FamilyMember :=
  (st.worklist.filterMap (lookupMember members)).filter fun m => !st.visited.contains m.id

/-- The nodes pushed by one `processGeneration` call
(`src/utils/exportService.ts` lines 600-615): the i-th valid member is
placed at `x = -totalWidth/2 + i*(nodeWidth+horizontalSpacing) +
nodeWidth/2`. -/
def layoutNodesFor (valid : List FamilyMember) (generation : Nat) (currentY : Rat) :
    List TreeNode :=
  valid.enum.map fun p =>
    { id := p.2.id
      member := p.2
      x := -((valid.length : Rat) * nodeWidth + ((valid.length : Rat) - 1) * horizontalSpacing)
            / 2 + (p.1 : Rat) * (nodeWidth + horizontalSpacing) + nodeWidth / 2
      y := currentY
      generation := generation }

/-- One iteration of the while loop of `generateTreeLayout`:
`processGeneration` applied to the current worklist, followed by the
bookkeeping of the loop (`generation++`, `currentY += nodeHeight +
verticalSpacing`, `src/utils/exportService.ts` lines 624-628). -/
def layoutStep (members : List FamilyMember) (st : LayoutState) : LayoutState :=
  if (validMembersOf members st).isEmpty then
    { st with
      worklist := []
      generation := st.generation + 1
      currentY := st.currentY + (nodeHeight + verticalSpacing) }
  else
    { nodes := st.nodes ++ layoutNodesFor (validMembersOf members st) st.generation st.currentY
      visited := st.visited ++ (validMembersOf members st).map (·.id)
      worklist := (validMembersOf members st).flatMap fun m => m.relationships.children
      generation := st.generation + 1
      currentY := st.currentY + (nodeHeight + verticalSpacing) }

/-- The while loop of `generateTreeLayout` with explicit fuel; `none`
means the fuel ran out with a nonempty worklist (never happens for the
fuel used below, see the termination theorem). -/
def layoutLoop (members : List FamilyMember) : Nat → LayoutState → Option LayoutState
  | 0, st => if st.worklist.isEmpty then some st else none
  | fuel+1, st =>
    if st.worklist.isEmpty then some st
    else layoutLoop members fuel (layoutStep members st)

/-- Connections emitted for a single member (`src/utils/exportService.ts`
lines 632-652): one `parent` connection per `children` entry (from the
id of the member to the child id, with no validation of the child id),
and one `spouse` connection per spouse id lexically greater than the own
id of the member. -/
def memberConnections (m : FamilyMember) : List TreeConnection :=
  (m.relationships.children.map fun childId =>
      { src := m.id, dst := childId, type := .parent : TreeConnection }) ++
    ((m.relationships.spouses.filter fun spouseId => decide (m.id < spouseId)).map
      fun spouseId => { src := m.id, dst := spouseId, type := .spouse : TreeConnection })

/-- All connections of the layout, in member order. -/
def treeConnections (members : List FamilyMember) : List TreeConnection :=
  members.flatMap memberConnections

/-- Initial loop state (`src/utils/exportService.ts` lines 572-591,
620-622): the worklist holds the root generation, i.e. the members with
no recorded parents, falling back to the first roster entry when there is
none. -/
def initialLayoutState (members : List FamilyMember) : LayoutState :=
  { nodes := []
    visited := []
    worklist :=
      (if (members.filter fun m => m.relationships.parents.isEmpty).isEmpty then
        members.take 1
      else
        members.filter fun m => m.relationships.parents.isEmpty).map (·.id)
    generation := 0
    currentY := 50 }

/-- Embedding of `TreeLayoutService.generateTreeLayout` (`src/utils/exportService.ts`
lines 569-655).  The `none` branch of the fuelled loop is unreachable
(termination theorem below). -/
def generateTreeLayout (members : List FamilyMember) :
    List TreeNode × List TreeConnection :=
  if members.isEmpty then ([], [])
  else
    match layoutLoop members (members.length + 2) (initialLayoutState members) with
    | some st => (st.nodes, treeConnections members)
    | none => ([], treeConnections members)

/- ### Helper lemmas about the tree layout -/

theorem mem_of_mem_enum {α : Type} {l : List α} {p : Nat × α} (h : p ∈ l.enum) : p.2 ∈ l := by
  have h2 := List.mem_map_of_mem Prod.snd h
  rwa [List.enum_map_snd] at h2

theorem treeConnections_snd (members : List FamilyMember) (h : ¬members.isEmpty = true) :
    (generateTreeLayout members).2 = treeConnections members := by
  unfold generateTreeLayout
  rw [if_neg h]
  cases layoutLoop members (members.length + 2) (initialLayoutState members) <;> rfl

theorem layoutNodesFor_ids (valid : List FamilyMember) (generation : Nat) (currentY : Rat) :
    (layoutNodesFor valid generation currentY).map (·.id) = valid.map (·.id) := by
  unfold layoutNodesFor
  rw [List.map_map]
  have : ((fun n : TreeNode => n.id) ∘ fun p : Nat × FamilyMember =>
      ({ id := p.2.id
         member := p.2
         x := -((valid.length : Rat) * nodeWidth +
            ((valid.length : Rat) - 1) * horizontalSpacing) / 2 +
            (p.1 : Rat) * (nodeWidth + horizontalSpacing) + nodeWidth / 2
         y := currentY
         generation := generation } : TreeNode)) =
      (fun m : FamilyMember => m.id) ∘ Prod.snd := rfl
  rw [this, ← List.map_map, List.enum_map_snd]

theorem layoutStep_node_mem {members : List FamilyMember} {st : LayoutState}
    {node : TreeNode} (h : node ∈ (layoutStep members st).nodes) :
    node ∈ st.nodes ∨ (node.member ∈ members ∧ node.id = node.member.id) := by
  unfold layoutStep at h
  by_cases he : (validMembersOf members st).isEmpty = true
  · rw [if_pos he] at h
    exact Or.inl h
  · rw [if_neg he] at h
    simp only [List.mem_append] at h
    rcases h with h | h
    · exact Or.inl h
    · right
      unfold layoutNodesFor at h
      simp only [List.mem_map] at h
      obtain ⟨p, hp, hpe⟩ := h
      have h2 : p.2 ∈ validMembersOf members st := mem_of_mem_enum hp
      have h3 : p.2 ∈ st.worklist.filterMap (lookupMember members) :=
        (List.mem_filter.mp h2).1
      obtain ⟨x, _, hx⟩ := List.mem_filterMap.mp h3
      have hmem : p.2 ∈ members := List.mem_of_find?_eq_some hx
      subst hpe
      exact ⟨hmem, rfl⟩

theorem layoutLoop_node_mem {members : List FamilyMember} :
    ∀ {fuel : Nat} {st st' : LayoutState},
      layoutLoop members fuel st = some st' →
      ∀ node ∈ st'.nodes,
        node ∈ st.nodes ∨ (node.member ∈ members ∧ node.id = node.member.id) := by
  intro fuel
  induction fuel with
  | zero =>
    intro st st' h node hn
    unfold layoutLoop at h
    by_cases he : st.worklist.isEmpty = true
    · rw [if_pos he] at h
      cases h
      exact Or.inl hn
    · rw [if_neg he] at h
      cases h
  | succ k ih =>
    intro st st' h node hn
    unfold layoutLoop at h
    by_cases he : st.worklist.isEmpty = true
    · rw [if_pos he] at h
      cases h
      exact Or.inl hn
    · rw [if_neg he] at h
      rcases ih h node hn with h1 | h1
      · exact layoutStep_node_mem h1
      · exact Or.inr h1

theorem generateTreeLayout_nodes_ids (members : List FamilyMember) :
    ∀ node ∈ (generateTreeLayout members).1, node.id ∈ memberIds members := by
  intro node hn
  unfold generateTreeLayout at hn
  by_cases he : members.isEmpty = true
  · rw [if_pos he] at hn
    simp at hn
  · rw [if_neg he] at hn
    rcases hl : layoutLoop members (members.length + 2) (initialLayoutState members) with
      _ | st
    · rw [hl] at hn
      simp at hn
    · rw [hl] at hn
      rcases layoutLoop_node_mem hl node hn with h1 | h1
      · simp [initialLayoutState] at h1
      · rw [h1.2]
        exact List.mem_map_of_mem (·.id) h1.1

/- ### Claim C10 -/

/-- C10: the connection derivation of the tree layout does not validate
endpoints: for every roster member and every id in its `children` list, a
`parent` connection to that id is emitted, while every node of the layout
carries a roster id - so a connection to a non-roster id references an id
for which no node exists. -/
theorem layout_connections_unvalidated
    (members : List FamilyMember) (m : FamilyMember) (childId : String)
    (hm : m ∈ members) (hc : childId ∈ m.relationships.children) :
    ({ src := m.id, dst := childId, type := .parent : TreeConnection } ∈
        (generateTreeLayout members).2) ∧
    ∀ node ∈ (generateTreeLayout members).1, node.id ∈ memberIds members := by
  constructor
  · have hne : ¬members.isEmpty = true := by
      simp only [List.isEmpty_iff]
      exact List.ne_nil_of_mem hm
    rw [treeConnections_snd members hne]
    unfold treeConnections
    rw [List.mem_flatMap]
    refine ⟨m, hm, ?_⟩
    unfold memberConnections
    exact List.mem_append_left _ (List.mem_map_of_mem _ hc)
  · exact generateTreeLayout_nodes_ids members

/-- Witness for C10: a single-member roster whose only child id "ghost"
matches no roster member; the parent connection to "ghost" is still
emitted and no node has id "ghost". -/
theorem layout_connections_unvalidated_witness :
    ((⟨"ann", "Ann", .female, ⟨[], [], [], ["ghost"]⟩⟩ : FamilyMember) ∈
        [(⟨"ann", "Ann", .female, ⟨[], [], [], ["ghost"]⟩⟩ : FamilyMember)] ∧
      "ghost" ∈
        (⟨"ann", "Ann", .female, ⟨[], [], [], ["ghost"]⟩⟩ :
          FamilyMember).relationships.children) ∧
    ({ src := "ann", dst := "ghost", type := .parent : TreeConnection } ∈
        (generateTreeLayout [⟨"ann", "Ann", .female, ⟨[], [], [], ["ghost"]⟩⟩]).2) ∧
    ∀ node ∈ (generateTreeLayout [⟨"ann", "Ann", .female, ⟨[], [], [], ["ghost"]⟩⟩]).1,
      node.id ∈ memberIds [⟨"ann", "Ann", .female, ⟨[], [], [], ["ghost"]⟩⟩] := by
  refine ⟨⟨by decide, by decide⟩, ?_⟩
  exact layout_connections_unvalidated _ _ _ (List.mem_singleton.mpr rfl) (by decide)

/- ### Claim C2 -/

/-- Roster of a perfectly ordinary symmetric family: two parents who share
one child. -/
def dupChildRoster : List FamilyMember :=
  [⟨"p1", "Pat", .male, ⟨[], [], [], ["kid"]⟩⟩,
   ⟨"p2", "Pam", .female, ⟨[], [], [], ["kid"]⟩⟩,
   ⟨"kid", "Kid", .other, ⟨["p1", "p2"], [], [], []⟩⟩]

/-- Counterexample to C2 as stated: on the three-member roster with two
parents sharing one child, the layout emits four nodes (the child appears
twice, because `validMembers` is filtered against the visited set before
any of its entries is marked visited), so the node list does not have one
node per roster member. -/
theorem layout_coverage_counterexample :
    (generateTreeLayout dupChildRoster).1.length ≠ dupChildRoster.length ∧
    ((generateTreeLayout dupChildRoster).1.map (·.id)).count "kid" = 2 :=
  ⟨by decide, by decide⟩

theorem lookupMember_self {members : List FamilyMember}
    (hnd : (memberIds members).Nodup) {m : FamilyMember} (hm : m ∈ members) :
    lookupMember members m.id = some m := by
  unfold memberIds at hnd
  induction members with
  | nil => simp at hm
  | cons a t ih =>
    simp only [List.map_cons, List.nodup_cons] at hnd
    rcases List.mem_cons.mp hm with rfl | hm'
    · unfold lookupMember
      simp [List.find?_cons]
    · have hne : ¬a.id = m.id := fun heq =>
        hnd.1 (heq ▸ List.mem_map_of_mem (·.id) hm')
    
      unfold lookupMember at ih ⊢
      simp only [List.find?_cons]
      rw [show (a.id == m.id) = false from by simp [hne]]
      exact ih hnd.2 hm'

theorem filterMap_lookup_of_self {members : List FamilyMember} :
    ∀ {l : List FamilyMember}, (∀ m ∈ l, lookupMember members m.id = some m) →
      (l.map (·.id)).filterMap (lookupMember members) = l := by
  intro l
  induction l with
  | nil => intro _; rfl
  | cons a t ih =>
    intro h
    simp only [List.map_cons, List.filterMap_cons, h a (List.mem_cons_self a t)]
    rw [ih fun m hm => h m (List.mem_cons_of_mem a hm)]

theorem validMembersOf_eq_nil {members : List FamilyMember} {st : LayoutState}
    (h : ∀ m ∈ members, st.visited.contains m.id = true) :
    validMembersOf members st = [] := by
  unfold validMembersOf
  rw [List.filter_eq_nil_iff]
  intro a ha
  obtain ⟨x, _, hx⟩ := List.mem_filterMap.mp ha
  have hmem : a ∈ members := List.mem_of_find?_eq_some hx
  simpa using h a hmem

theorem layoutLoop_of_worklist_nil {members : List FamilyMember} {st : LayoutState}
    (h : st.worklist = []) : ∀ f, layoutLoop members f st = some st := by
  intro f
  cases f <;> simp [layoutLoop, h]

theorem layoutLoop_all_visited (members : List FamilyMember) (st1 : LayoutState)
    (hv : ∀ m ∈ members, st1.visited.contains m.id = true) (f : Nat) :
    ∃ st', layoutLoop members (f + 1) st1 = some st' ∧ st'.nodes = st1.nodes := by
  by_cases hw : st1.worklist.isEmpty = true
  · exact ⟨st1, layoutLoop_of_worklist_nil (List.isEmpty_iff.mp hw) _, rfl⟩
  · have hstep : layoutStep members st1 =
        { st1 with
          worklist := []
          generation := st1.generation + 1
          currentY := st1.currentY + (nodeHeight + verticalSpacing) } := by
      unfold layoutStep
      rw [if_pos (by rw [validMembersOf_eq_nil hv]; rfl)]
    rw [layoutLoop, if_neg hw, hstep]
    exact ⟨_, layoutLoop_of_worklist_nil rfl _, rfl⟩

/-- C2 amended: on rosters with unique ids in which every member has an
empty `parents` list (in particular any roster of isolated members), the
tree layout produces exactly one node per roster member, in roster order.
In general the claim fails: a child listed by two parents yields duplicate
nodes, and a member whose recorded parents are all absent ids is omitted. -/
theorem layout_coverage_of_rootOnly
    (members : List FamilyMember)
    (hnd : (memberIds members).Nodup)
    (hroots : ∀ m ∈ members, m.relationships.parents = []) :
    (generateTreeLayout members).1.map (·.id) = memberIds members := by
  by_cases he : members.isEmpty = true
  · have h0 : members = [] := List.isEmpty_iff.mp he
    subst h0
    rfl
  · have hmne : members ≠ [] := by simpa [List.isEmpty_iff] using he
    have hfilter : (members.filter fun m => m.relationships.parents.isEmpty) = members :=
      List.filter_eq_self.mpr fun m hm => by simp [hroots m hm]
    have hwl : (initialLayoutState members).worklist = members.map (·.id) := by
      show (if (members.filter fun m => m.relationships.parents.isEmpty).isEmpty then
          members.take 1
        else members.filter fun m => m.relationships.parents.isEmpty).map (·.id) =
          members.map (·.id)
      rw [hfilter, if_neg he]
    have hvalid0 : validMembersOf members (initialLayoutState members) = members := by
      unfold validMembersOf
      rw [hwl]
      have hv0 : (initialLayoutState members).visited = ([] : List String) := rfl
      rw [hv0, filterMap_lookup_of_self fun m hm => lookupMember_self hnd hm]
      exact List.filter_eq_self.mpr fun m _ => rfl
    have hne : ¬(initialLayoutState members).worklist.isEmpty = true := by
      rw [hwl]
      simp [List.isEmpty_iff, hmne]
    have hstep0 : layoutStep members (initialLayoutState members) =
        { nodes := [] ++ layoutNodesFor members 0 50
          visited := [] ++ members.map (·.id)
          worklist := members.flatMap fun m => m.relationships.children
          generation := 0 + 1
          currentY := 50 + (nodeHeight + verticalSpacing) } := by
      unfold layoutStep
      rw [hvalid0, if_neg he]
      rfl
    have hmain : ∃ st', layoutLoop members (members.length + 2) (initialLayoutState members) =
        some st' ∧ st'.nodes = layoutNodesFor members 0 50 := by
      have h1 : layoutLoop members (members.length + 2) (initialLayoutState members) =
          layoutLoop members (members.length + 1)
            (layoutStep members (initialLayoutState members)) := by
        show layoutLoop members (members.length + 1 + 1) (initialLayoutState members) = _
        rw [layoutLoop, if_neg hne]
      rw [h1, hstep0]
      obtain ⟨st', hst', hnodes⟩ :=
        layoutLoop_all_visited members
          { nodes := [] ++ layoutNodesFor members 0 50
            visited := [] ++ members.map (·.id)
            worklist := members.flatMap fun m => m.relationships.children
            generation := 0 + 1
            currentY := 50 + (nodeHeight + verticalSpacing) }
          (fun m hm => by
            have hmm : m.id ∈ ([] : List String) ++ members.map (·.id) :=
              List.mem_append_right _ (List.mem_map_of_mem (·.id) hm)
            simpa using hmm) members.length
      exact ⟨st', hst', by rw [hnodes]; exact List.nil_append _⟩
    obtain ⟨st', hst', hnodes⟩ := hmain
    unfold generateTreeLayout
    rw [if_neg he, hst']
    show st'.nodes.map (·.id) = memberIds members
    rw [hnodes, layoutNodesFor_ids]
    rfl

/-- Witness for the amended statement of C2: two isolated members (no edges at
all) each receive exactly one node. -/
theorem layout_coverage_of_rootOnly_witness :
    ((memberIds [⟨"solo1", "Solo", .male, ⟨[], [], [], []⟩⟩,
        ⟨"solo2", "Sola", .female, ⟨[], [], [], []⟩⟩]).Nodup ∧
      ∀ m ∈ [(⟨"solo1", "Solo", .male, ⟨[], [], [], []⟩⟩ : FamilyMember),
        ⟨"solo2", "Sola", .female, ⟨[], [], [], []⟩⟩], m.relationships.parents = []) ∧
    (generateTreeLayout [⟨"solo1", "Solo", .male, ⟨[], [], [], []⟩⟩,
        ⟨"solo2", "Sola", .female, ⟨[], [], [], []⟩⟩]).1.map (·.id) =
      memberIds [⟨"solo1", "Solo", .male, ⟨[], [], [], []⟩⟩,
        ⟨"solo2", "Sola", .female, ⟨[], [], [], []⟩⟩] := by
  refine ⟨⟨by decide, by decide⟩, ?_⟩
  exact layout_coverage_of_rootOnly _ (by decide) (by decide)

/- ### Claim C6 -/

theorem countP_flatMap {α β : Type} (l : List α) (f : α → List β) (p : β → Bool) :
    (l.flatMap f).countP p = (l.map fun a => (f a).countP p).sum := by
  induction l with
  | nil => rfl
  | cons a t ih => simp [List.flatMap_cons, List.countP_append, ih]

theorem list_countP_congr {α : Type} {l : List α} {p q : α → Bool}
    (h : ∀ a ∈ l, p a = q a) : l.countP p = l.countP q := by
  induction l with
  | nil => rfl
  | cons a t ih =>
    simp [List.countP_cons, h a (List.mem_cons_self a t),
      ih fun b hb => h b (List.mem_cons_of_mem a hb)]

theorem map_sum_eq_single {members : List FamilyMember} {f : FamilyMember → Nat}
    {x : FamilyMember} (hnd : (memberIds members).Nodup) (hx : x ∈ members)
    (h0 : ∀ m ∈ members, m.id ≠ x.id → f m = 0) :
    (members.map f).sum = f x := by
  unfold memberIds at hnd
  induction members with
  | nil => simp at hx
  | cons a t ih =>
    simp only [List.map_cons, List.nodup_cons] at hnd
    simp only [List.map_cons, List.sum_cons]
    rcases List.mem_cons.mp hx with rfl | hx'
    · have hz : (t.map f).sum = 0 := by
        apply List.sum_eq_zero
        intro v hv
        obtain ⟨m, hm, rfl⟩ := List.mem_map.mp hv
        exact h0 m (List.mem_cons_of_mem _ hm)
          fun he => hnd.1 (he ▸ List.mem_map_of_mem (·.id) hm)
      rw [hz]
      omega
    · have ha0 : f a = 0 :=
        h0 a (List.mem_cons_self a t)
          fun he => hnd.1 (he.symm ▸ List.mem_map_of_mem (·.id) hx')
      rw [ha0, ih hnd.2 hx' fun m hm hne => h0 m (List.mem_cons_of_mem _ hm) hne]
      omega

/-- C6: for a roster with unique ids, the connection derivation of the
layout emits exactly one `parent` connection per entry of the `children`
list of a member (directed from the id of the member to the child id:
the count of such
connections equals the count of the entry), and exactly one `spouse`
connection for a symmetric spouse pair with duplicate-free spouse lists -
deduplicated by the canonical ordering `memberId < spouseId`, so the
symmetric edge is never emitted twice. -/
theorem layout_connections_counts
    (members : List FamilyMember) (x y : FamilyMember) (c : String)
    (hnd : (memberIds members).Nodup)
    (hx : x ∈ members) (hy : y ∈ members)
    (hlt : x.id < y.id)
    (hxy : y.id ∈ x.relationships.spouses) (hyx : x.id ∈ y.relationships.spouses)
    (hnds : x.relationships.spouses.Nodup) :
    ((treeConnections members).countP fun conn =>
        decide (conn.type = .parent ∧ conn.src = x.id ∧ conn.dst = c)) =
      x.relationships.children.count c ∧
    ((treeConnections members).countP fun conn =>
        decide (conn.type = .spouse ∧
          ((conn.src = x.id ∧ conn.dst = y.id) ∨ (conn.src = y.id ∧ conn.dst = x.id)))) =
      1 := by
  constructor
  · unfold treeConnections
    rw [countP_flatMap, map_sum_eq_single hnd hx ?parZero]
    case parZero =>
      intro m _ hne
      unfold memberConnections
      rw [List.countP_append]
      have hA : (m.relationships.children.map fun childId =>
          { src := m.id, dst := childId, type := .parent : TreeConnection }).countP
            (fun conn => decide (conn.type = .parent ∧ conn.src = x.id ∧ conn.dst = c)) = 0 := by
        rw [List.countP_map, List.countP_eq_zero]
        intro a _
        simp [Function.comp, hne]
      have hB : (((m.relationships.spouses.filter fun spouseId =>
          decide (m.id < spouseId)).map fun spouseId =>
            { src := m.id, dst := spouseId, type := .spouse : TreeConnection }).countP
            (fun conn => decide (conn.type = .parent ∧ conn.src = x.id ∧ conn.dst = c))) = 0 := by
        rw [List.countP_map, List.countP_eq_zero]
        intro a _
        simp [Function.comp]
      rw [hA, hB]
    · unfold memberConnections
      rw [List.countP_append]
      have hB : (((x.relationships.spouses.filter fun spouseId =>
          decide (x.id < spouseId)).map fun spouseId =>
            { src := x.id, dst := spouseId, type := .spouse : TreeConnection }).countP
            (fun conn => decide (conn.type = .parent ∧ conn.src = x.id ∧ conn.dst = c))) = 0 := by
        rw [List.countP_map, List.countP_eq_zero]
        intro a _
        simp [Function.comp]
      rw [hB, List.countP_map]
      rw [list_countP_congr (q := fun s => s == c) ?congrP]
      case congrP =>
        intro a _
        by_cases hac : a = c <;> simp [Function.comp, hac]
      rw [List.count]
      omega
  · unfold treeConnections
    rw [countP_flatMap, map_sum_eq_single hnd hx ?spZero]
    case spZero =>
      intro m _ hne
      unfold memberConnections
      rw [List.countP_append]
      have hA : (m.relationships.children.map fun childId =>
          { src := m.id, dst := childId, type := .parent : TreeConnection }).countP
            (fun conn => decide (conn.type = .spouse ∧
              ((conn.src = x.id ∧ conn.dst = y.id) ∨
                (conn.src = y.id ∧ conn.dst = x.id)))) = 0 := by
        rw [List.countP_map, List.countP_eq_zero]
        intro a _
        simp [Function.comp]
      have hB : (((m.relationships.spouses.filter fun spouseId =>
          decide (m.id < spouseId)).map fun spouseId =>
            { src := m.id, dst := spouseId, type := .spouse : TreeConnection }).countP
            (fun conn => decide (conn.type = .spouse ∧
              ((conn.src = x.id ∧ conn.dst = y.id) ∨
                (conn.src = y.id ∧ conn.dst = x.id)))) ) = 0 := by
        rw [List.countP_map, List.countP_eq_zero]
        intro a ha
        have hflt : decide (m.id < a) = true := (List.mem_filter.mp ha).2
        have hma : m.id < a := of_decide_eq_true hflt
        simp only [Function.comp, decide_eq_true_eq]
        rintro ⟨-, ⟨hm1, -⟩ | ⟨hm2, ha2⟩⟩
        · exact hne hm1
        · rw [hm2, ha2] at hma
          exact absurd hlt (lt_asymm hma)
      rw [hA, hB]
    · unfold memberConnections
      rw [List.countP_append]
      have hA : (x.relationships.children.map fun childId =>
          { src := x.id, dst := childId, type := .parent : TreeConnection }).countP
            (fun conn => decide (conn.type = .spouse ∧
              ((conn.src = x.id ∧ conn.dst = y.id) ∨
                (conn.src = y.id ∧ conn.dst = x.id)))) = 0 := by
        rw [List.countP_map, List.countP_eq_zero]
        intro a _
        simp [Function.comp]
      rw [hA, List.countP_map]
      have hxyne : x.id ≠ y.id := ne_of_lt hlt
      rw [list_countP_congr (q := fun s => s == y.id) ?congrS]
      case congrS =>
        intro a ha
        have hflt : decide (x.id < a) = true := (List.mem_filter.mp ha).2
        by_cases hay : a = y.id
        · simp [Function.comp, hay]
        · simp [Function.comp, hay, hxyne]
      have hcf : (x.relationships.spouses.filter fun spouseId =>
          decide (x.id < spouseId)).countP (fun s => s == y.id) =
          x.relationships.spouses.countP (fun s => (s == y.id) && decide (x.id < s)) :=
        List.countP_filter _ _ _
      rw [hcf]
      rw [list_countP_congr (q := fun s => s == y.id) ?congrT]
      case congrT =>
        intro a _
        by_cases hay : a = y.id
        · simp [hay, hlt]
        · simp [hay]
      rw [← List.count]
      have hone := List.count_eq_one_of_mem hnds hxy
      omega

/-- Witness for C6: a symmetric spouse pair with one child entry; the
layout emits exactly one parent connection for the child entry and
exactly one spouse connection for the pair. -/
theorem layout_connections_counts_witness :
    ((memberIds [⟨"ax", "Axel", .male, ⟨[], [], ["by"], ["kid"]⟩⟩,
        ⟨"by", "Bea", .female, ⟨[], [], ["ax"], ["kid"]⟩⟩]).Nodup ∧
      ("ax" : String) < "by" ∧
      ("by" : String) ∈
        (⟨"ax", "Axel", .male, ⟨[], [], ["by"], ["kid"]⟩⟩ :
          FamilyMember).relationships.spouses) ∧
    ((treeConnections [⟨"ax", "Axel", .male, ⟨[], [], ["by"], ["kid"]⟩⟩,
        ⟨"by", "Bea", .female, ⟨[], [], ["ax"], ["kid"]⟩⟩]).countP fun conn =>
        decide (conn.type = .parent ∧ conn.src = "ax" ∧ conn.dst = "kid")) =
      (⟨"ax", "Axel", .male, ⟨[], [], ["by"], ["kid"]⟩⟩ :
        FamilyMember).relationships.children.count "kid" ∧
    ((treeConnections [⟨"ax", "Axel", .male, ⟨[], [], ["by"], ["kid"]⟩⟩,
        ⟨"by", "Bea", .female, ⟨[], [], ["ax"], ["kid"]⟩⟩]).countP fun conn =>
        decide (conn.type = .spouse ∧
          ((conn.src = "ax" ∧ conn.dst = "by") ∨ (conn.src = "by" ∧ conn.dst = "ax")))) =
      1 := by
  refine ⟨⟨by decide, by rw [String.lt_iff_toList_lt]; decide, by decide⟩, ?_⟩
  exact layout_connections_counts _
    ⟨"ax", "Axel", .male, ⟨[], [], ["by"], ["kid"]⟩⟩
    ⟨"by", "Bea", .female, ⟨[], [], ["ax"], ["kid"]⟩⟩ "kid"
    (by decide) (by decide) (by decide) (by rw [String.lt_iff_toList_lt]; decide)
    (by decide) (by decide) (by decide)

/- ### Termination of the layout loop (first half of claim C5) -/

/-- Number of roster ids not yet in the visited set; the decreasing
measure of the layout loop. -/
def layoutUnvisitedCount (members : List FamilyMember) (visited : List String) : Nat :=
  ((members.map (·.id)).filter fun i => !visited.contains i).length

theorem filter_sublist_of_imp {α : Type} {p q : α → Bool} (l : List α)
    (h : ∀ a, p a = true → q a = true) : List.Sublist (l.filter p) (l.filter q) := by
  induction l with
  | nil => simp
  | cons a t ih =>
    by_cases hpa : p a = true
    · rw [List.filter_cons_of_pos hpa, List.filter_cons_of_pos (h a hpa)]
      exact ih.cons₂ a
    · rw [List.filter_cons_of_neg (by simp [hpa])]
      by_cases hqa : q a = true
      · rw [List.filter_cons_of_pos hqa]
        exact ih.cons a
      · rw [List.filter_cons_of_neg (by simp [hqa])]
        exact ih

theorem contains_eq_true_of_mem {l : List String} {a : String} (h : a ∈ l) :
    l.contains a = true := by
  simpa using h

theorem mem_of_contains_eq_true {l : List String} {a : String} (h : l.contains a = true) :
    a ∈ l := by
  simpa using h

theorem layoutStep_unvisited_lt {members : List FamilyMember} {st : LayoutState}
    (hval : ¬(validMembersOf members st).isEmpty = true) :
    layoutUnvisitedCount members (layoutStep members st).visited <
      layoutUnvisitedCount members st.visited := by
  obtain ⟨m, hm⟩ : ∃ m, m ∈ validMembersOf members st := by
    cases hv : validMembersOf members st with
    | nil => rw [hv] at hval; exact absurd rfl hval
    | cons a t => exact ⟨a, hv ▸ List.mem_cons_self a t⟩
  have hmem : m ∈ members := by
    have h3 := (List.mem_filter.mp hm).1
    obtain ⟨i, _, hi⟩ := List.mem_filterMap.mp h3
    exact List.mem_of_find?_eq_some hi
  have hmv : st.visited.contains m.id = false := by
    have h4 := (List.mem_filter.mp hm).2
    simpa using h4
  have hvis : (layoutStep members st).visited =
      st.visited ++ (validMembersOf members st).map (·.id) := by
    unfold layoutStep
    rw [if_neg hval]
  rw [hvis]
  unfold layoutUnvisitedCount
  have hsub : List.Sublist
      ((members.map (·.id)).filter fun i =>
        !(st.visited ++ (validMembersOf members st).map (·.id)).contains i)
      ((members.map (·.id)).filter fun i => !st.visited.contains i) := by
    apply filter_sublist_of_imp
    intro a ha
    simp only [Bool.not_eq_true'] at ha ⊢
    cases hcase : st.visited.contains a
    · rfl
    · exfalso
      have h2 : a ∈ st.visited := mem_of_contains_eq_true hcase
      have h4 := contains_eq_true_of_mem
        (List.mem_append_left ((validMembersOf members st).map (·.id)) h2)
      rw [h4] at ha
      cases ha
  have hlen := hsub.length_le
  rcases Nat.eq_or_lt_of_le hlen with heq | hlt
  · exfalso
    have hleq := hsub.eq_of_length heq
    have hmemold : m.id ∈ (members.map (·.id)).filter fun i => !st.visited.contains i := by
      rw [List.mem_filter]
      exact ⟨List.mem_map_of_mem (·.id) hmem, by rw [Bool.not_eq_true']; exact hmv⟩
    rw [← hleq] at hmemold
    have hmemnew := (List.mem_filter.mp hmemold).2
    have h5 := contains_eq_true_of_mem
      (List.mem_append_right st.visited (List.mem_map_of_mem (·.id) hm))
    rw [Bool.not_eq_true', h5] at hmemnew
    cases hmemnew
  · exact hlt

theorem layoutLoop_isSome (members : List FamilyMember) :
    ∀ (fuel : Nat) (st : LayoutState),
      layoutUnvisitedCount members st.visited + 2 ≤ fuel →
      (layoutLoop members fuel st).isSome = true := by
  intro fuel
  induction fuel with
  | zero => intro st h; omega
  | succ k ih =>
    intro st h
    rw [layoutLoop]
    by_cases hw : st.worklist.isEmpty = true
    · rw [if_pos hw]
      rfl
    · rw [if_neg hw]
      by_cases hval : (validMembersOf members st).isEmpty = true
      · have hstep : (layoutStep members st).worklist = [] := by
          unfold layoutStep
          rw [if_pos hval]
        rw [layoutLoop_of_worklist_nil hstep k]
        rfl
      · apply ih
        have hdec := layoutStep_unvisited_lt hval
        omega

/- ### Relationship mapper (`generateRelationshipMap` / `assignGeneration`
in the `RelationshipMapper` component) -/

/-- State of the generation assignment of `generateRelationshipMap`: the
`memberGenerations` map (association list in insertion order, as a JS
`Map`), the `generations` buckets keyed by generation number, and the
visited set of the current traversal. -/
structure MapState where
  memberGenerations : List (String × Int)
  generations : List (Int × List FamilyMember)
  visited : List String
deriving DecidableEq

/-- Embedding of `memberGenerations.get(id)` of the mapper. -/
def lookupGen (st : MapState) (id : String) : Option Int :=
  (st.memberGenerations.find? fun p => p.1 == id).map (·.2)

/-- Embedding of `memberGenerations.set(id, v)`: replace the binding if the key is
present, else append it (JS `Map` insertion order). -/
def setGen (st : MapState) (id : String) (v : Int) : MapState :=
  if st.memberGenerations.any fun p => p.1 == id then
    { st with memberGenerations :=
        st.memberGenerations.map fun p => if p.1 == id then (id, v) else p }
  else
    { st with memberGenerations := st.memberGenerations ++ [(id, v)] }

/-- The bucket update of `assignGeneration`: ensure the bucket for the
proposed generation exists and push the member unless an entry with the
same id is already in that bucket. -/
def addToBucket (buckets : List (Int × List FamilyMember)) (g : Int) (m : FamilyMember) :
    List (Int × List FamilyMember) :=
  if buckets.any fun p => p.1 == g then
    buckets.map fun p =>
      if p.1 == g then
        (p.1, if p.2.any fun x => x.id == m.id then p.2 else p.2 ++ [m])
      else p
  else buckets ++ [(g, [m])]

/-- One `forEach` loop of `assignGeneration` over a list of edge ids,
parameterized by the recursive call `rec` (the traversal at one fuel
less): look each id up in the roster and recurse on the found member at
the offset generation, silently skipping absent ids. -/
def propagateWith (members : List FamilyMember)
    (rec : FamilyMember → Int → MapState → Option MapState) :
    List String → Int → MapState → Option MapState
  | [], _, st => some st
  | id :: ids, gen, st =>
    match lookupMember members id with
    | some m =>
      match rec m gen st with
      | none => none
      | some st2 => propagateWith members rec ids gen st2
    | none => propagateWith members rec ids gen st

/-- The state update performed when `assignGeneration` first reaches a
member in a traversal (part_008 lines 74-87): mark it visited, raise its
stored generation to the maximum of the stored and the proposed value,
and add it to the bucket of the proposed generation. -/
def visitMember (st : MapState) (member : FamilyMember) (generation : Int) : MapState :=
  let st1 : MapState := { st with visited := st.visited ++ [member.id] }
  let st2 := setGen st1 member.id (max ((lookupGen st1 member.id).getD generation) generation)
  { st2 with generations := addToBucket st2.generations generation member }

/-- Embedding of `assignGeneration(member, generation, visited)` of the
`RelationshipMapper` (part_008 lines 73-120), with explicit fuel: return
immediately when the member is already visited in this traversal,
otherwise record the visit, raise the stored generation to the maximum of
the stored and the proposed value, add the member to the bucket of the
proposed generation, then propagate to parents (one generation up),
children (one down), and siblings and spouses (same generation). -/
def assignGenerationF (members : List FamilyMember) :
    Nat → FamilyMember → Int → MapState → Option MapState
  | 0, _, _, _ => none
  | fuel+1, member, generation, st =>
    if st.visited.contains member.id then some st
    else
      match propagateWith members (assignGenerationF members fuel)
          member.relationships.parents (generation + 1) (visitMember st member generation) with
      | none => none
      | some st4 =>
        match propagateWith members (assignGenerationF members fuel)
            member.relationships.children (generation - 1) st4 with
        | none => none
        | some st5 =>
          match propagateWith members (assignGenerationF members fuel)
              member.relationships.siblings generation st5 with
          | none => none
          | some st6 =>
            propagateWith members (assignGenerationF members fuel)
              member.relationships.spouses generation st6

/-- Fuel sufficient for every traversal (termination theorem below). -/
def assignFuel (members : List FamilyMember) : Nat := members.length + 2

/-- The whole generation-assignment phase of `generateRelationshipMap`
(part_008 lines 122-130): seed the traversal at the focus member with
generation 0, then assign generation 0 to every member that is still
unassigned; every top-level traversal starts with a fresh visited set. -/
def runAssignAll (members : List FamilyMember) (focus : FamilyMember) : Option MapState :=
  match assignGenerationF members (assignFuel members) focus 0 ⟨[], [], []⟩ with
  | none => none
  | some st1 =>
    members.foldl (fun acc mem =>
      match acc with
      | none => none
      | some st =>
        if (lookupGen st mem.id).isSome then some st
        else assignGenerationF members (assignFuel members) mem 0
          { st with visited := [] }) (some st1)

/-- Layout constant `LEVEL_HEIGHT = 120` of the mapper. -/
def levelHeight : Rat := 120

/-- Layout constant `NODE_SPACING = 80` of the mapper. -/
def relNodeSpacing : Rat := 80

/-- A node of the relationship map (`RelationshipNode` in part_008). -/
structure RelationshipNode where
  id : String
  member : FamilyMember
  x : Rat
  y : Rat
  level : Nat
  generation : Int
deriving DecidableEq

/-- Connection kind of the mapper (`RelationshipConnection.type`). -/
inductive RelConnType where
  | parent
  | spouse
  | sibling
  | child
deriving DecidableEq

/-- An edge of the relationship map (`RelationshipConnection` in
part_008); `from` is called `src` because `from` is reserved in Lean. -/
structure RelationshipConnection where
  src : String
  dst : String
  type : RelConnType
  label : String
deriving DecidableEq

/-- Insertion into a descending-sorted list of generation numbers. -/
def insertDesc (x : Int) : List Int → List Int
  | [] => [x]
  | y :: ys => if y ≤ x then x :: y :: ys else y :: insertDesc x ys

/-- Embedding of the key sort `(a, b) => b - a` of the mapper: the bucket
keys in descending order. -/
def sortDesc : List Int → List Int
  | [] => []
  | x :: xs => insertDesc x (sortDesc xs)

/-- Embedding of `generations.get(g)` with a default. -/
def bucketMembers (buckets : List (Int × List FamilyMember)) (g : Int) : List FamilyMember :=
  ((buckets.find? fun p => p.1 == g).map (·.2)).getD []

/-- Coordinate assignment of `generateRelationshipMap` (part_008 lines
132-157): generations sorted descending become levels top to bottom; the
i-th member of a generation row sits at
`x = centerX - genWidth/2 + i*NODE_SPACING + NODE_SPACING/2`,
`y = levelIndex*LEVEL_HEIGHT + 50`. -/
def buildNodes (buckets : List (Int × List FamilyMember)) (width : Rat) :
    List RelationshipNode :=
  (sortDesc (buckets.map (·.1))).enum.flatMap fun li =>
    (bucketMembers buckets li.2).enum.map fun im =>
      { id := im.2.id
        member := im.2
        x := width / 2 - ((bucketMembers buckets li.2).length : Rat) * relNodeSpacing / 2 +
          (im.1 : Rat) * relNodeSpacing + relNodeSpacing / 2
        y := (li.1 : Rat) * levelHeight + 50
        level := li.1
        generation := li.2 }

/-- Connection generation of `generateRelationshipMap` (part_008 lines
159-207): per node, one `parent` connection per parent id that has a
node, then `spouse` and `sibling` connections deduplicated against the
connections accumulated so far (either direction). -/
def relConnections (nodes : List RelationshipNode) : List RelationshipConnection :=
  nodes.foldl (fun conns node =>
    let conns1 := conns ++ (node.member.relationships.parents.filterMap fun parentId =>
      if nodes.any fun n => n.id == parentId then
        some { src := parentId, dst := node.member.id, type := .parent, label := "Parent" }
      else none)
    let conns2 := node.member.relationships.spouses.foldl (fun cs spouseId =>
      if (nodes.any fun n => n.id == spouseId) &&
          !(cs.any fun c0 => (c0.src == spouseId && c0.dst == node.member.id) ||
            (c0.src == node.member.id && c0.dst == spouseId)) then
        cs ++ [{ src := node.member.id, dst := spouseId, type := .spouse, label := "Spouse" }]
      else cs) conns1
    node.member.relationships.siblings.foldl (fun cs siblingId =>
      if (nodes.any fun n => n.id == siblingId) &&
          !(cs.any fun c0 => (c0.src == siblingId && c0.dst == node.member.id) ||
            (c0.src == node.member.id && c0.dst == siblingId)) then
        cs ++ [{ src := node.member.id, dst := siblingId, type := .sibling, label := "Sibling" }]
      else cs) conns2) []

/-- Embedding of `generateRelationshipMap` (part_008 lines 61-215): empty roster gives
empty results; the seed is `focusMember || members[0]`; `width` is the
map width (`mapDimensions.width`).  The `none` branch of the fuelled
traversal is unreachable (termination theorem below). -/
def generateRelationshipMap (members : List FamilyMember)
    (focusMember : Option FamilyMember) (width : Rat) :
    List RelationshipNode × List RelationshipConnection :=
  match members with
  | [] => ([], [])
  | first :: _ =>
    match runAssignAll members (focusMember.getD first) with
    | some st => (buildNodes st.generations width, relConnections (buildNodes st.generations width))
    | none => ([], [])

/- ### Claim C8 -/

/-- Counterexample to C8 as stated: when the supplied focus member is not
in the roster, the mapper does not fall back to the first roster entry -
`focusMember || members[0]` only falls back when no focus is supplied.
Seeding roster `[amy]` with the absent member `bob` yields a different
layout than the fallback would, and even produces a node whose id `bob`
belongs to no roster member. -/
theorem relmap_focus_fallback_counterexample :
    generateRelationshipMap [⟨"amy", "Amy", .female, ⟨[], [], [], []⟩⟩]
        (some ⟨"bob", "Bob", .male, ⟨[], [], [], []⟩⟩) 300 ≠
      generateRelationshipMap [⟨"amy", "Amy", .female, ⟨[], [], [], []⟩⟩] none 300 ∧
    ((generateRelationshipMap [⟨"amy", "Amy", .female, ⟨[], [], [], []⟩⟩]
        (some ⟨"bob", "Bob", .male, ⟨[], [], [], []⟩⟩) 300).1.map (·.id)) = ["bob", "amy"] ∧
    "bob" ∉ memberIds [⟨"amy", "Amy", .female, ⟨[], [], [], []⟩⟩] :=
  ⟨by decide, by decide, by decide⟩

/-- C8 amended: an empty roster yields empty node and connection lists
without error in both layout engines, and when no focus member is
supplied the mapper falls back to the first roster entry as the seed;
both functions are total.  (A supplied focus member that is absent from
the roster is, however, used as the seed as-is - see the counterexample.) -/
theorem relmap_failure_semantics :
    (∀ (f : Option FamilyMember) (w : Rat), generateRelationshipMap [] f w = ([], [])) ∧
    generateTreeLayout ([] : List FamilyMember) = ([], []) ∧
    ∀ (m : FamilyMember) (rest : List FamilyMember) (w : Rat),
      generateRelationshipMap (m :: rest) none w =
        generateRelationshipMap (m :: rest) (some m) w :=
  ⟨fun _ _ => rfl, rfl, fun _ _ _ => rfl⟩

/- ### State-update lemmas for the mapper -/

/-- Maximum of an optional stored generation and a proposed one, the value
written by `memberGenerations.set(Math.max(currentGen, generation))`. -/
def maxOpt : Option Int → Int → Int
  | none, v => v
  | some w, v => max w v

theorem setGen_visited (st : MapState) (id : String) (v : Int) :
    (setGen st id v).visited = st.visited := by
  unfold setGen
  split <;> rfl

theorem setGen_generations (st : MapState) (id : String) (v : Int) :
    (setGen st id v).generations = st.generations := by
  unfold setGen
  split <;> rfl

theorem find?_map_set (l : List (String × Int)) (id : String) (v : Int)
    (h : (l.any fun p => p.1 == id) = true) :
    ((l.map fun p => if p.1 == id then (id, v) else p).find? fun p => p.1 == id) =
      some (id, v) := by
  induction l with
  | nil => simp at h
  | cons a t ih =>
    by_cases ha : (a.1 == id) = true
    · simp only [List.map_cons, if_pos ha, List.find?_cons]
      rw [show (((id, v) : String × Int).1 == id) = true from by simp]
    · simp only [List.any_cons, Bool.or_eq_true] at h
      rcases h with h | h
      · exact absurd h ha
      · simp only [List.map_cons, if_neg ha, List.find?_cons]
        rw [show (a.1 == id) = false from by simpa using ha]
        exact ih h

theorem find?_map_set_other (l : List (String × Int)) (id : String) (v : Int) {x : String}
    (hx : x ≠ id) :
    ((l.map fun p => if p.1 == id then (id, v) else p).find? fun p => p.1 == x) =
      l.find? fun p => p.1 == x := by
  induction l with
  | nil => rfl
  | cons a t ih =>
    by_cases ha : (a.1 == id) = true
    · have haid : a.1 = id := by simpa using ha
      simp only [List.map_cons, if_pos ha, List.find?_cons]
      rw [show (((id, v) : String × Int).1 == x) = false from by
          simpa using (fun h => hx h.symm : ¬id = x),
        show (a.1 == x) = false from by
          simpa using (haid ▸ (fun h => hx h.symm : ¬id = x) : ¬a.1 = x)]
      exact ih
    · simp only [List.map_cons, if_neg ha, List.find?_cons]
      cases hax : (a.1 == x) with
      | true => rfl
      | false => exact ih

theorem find?_append_singleton_self (l : List (String × Int)) (id : String) (v : Int)
    (hnone : (l.find? fun p => p.1 == id) = none) :
    ((l ++ [(id, v)]).find? fun p => p.1 == id) = some (id, v) := by
  induction l with
  | nil =>
    show ([((id : String), (v : Int))].find? fun p => p.1 == id) = some (id, v)
    rw [List.find?_cons, show (((id, v) : String × Int).1 == id) = true from by simp]
  | cons a t ih =>
    rw [List.cons_append, List.find?_cons]
    rw [List.find?_cons] at hnone
    cases hax : (a.1 == id) with
    | true =>
      rw [hax] at hnone
      simp at hnone
    | false =>
      rw [hax] at hnone
      exact ih hnone

theorem find?_append_singleton_ne (l : List (String × Int)) (id : String) (v : Int)
    {x : String} (hx : x ≠ id) :
    ((l ++ [(id, v)]).find? fun p => p.1 == x) = l.find? fun p => p.1 == x := by
  induction l with
  | nil =>
    show ([((id : String), (v : Int))].find? fun p => p.1 == x) = none
    rw [List.find?_cons, show (((id, v) : String × Int).1 == x) = false from by
      simpa using (fun h => hx h.symm : ¬id = x)]
    rfl
  | cons a t ih =>
    rw [List.cons_append, List.find?_cons, List.find?_cons]
    cases hax : (a.1 == x) with
    | true => rfl
    | false => exact ih

theorem lookupGen_setGen_self (st : MapState) (id : String) (v : Int) :
    lookupGen (setGen st id v) id = some v := by
  unfold lookupGen setGen
  by_cases hany : (st.memberGenerations.any fun p => p.1 == id) = true
  · rw [if_pos hany]
    show ((st.memberGenerations.map fun p => if p.1 == id then (id, v) else p).find?
      fun p => p.1 == id).map (·.2) = some v
    rw [find?_map_set _ _ _ hany]
    rfl
  · rw [if_neg hany]
    show ((st.memberGenerations ++ [(id, v)]).find? fun p => p.1 == id).map (·.2) = some v
    have hnone : (st.memberGenerations.find? fun p => p.1 == id) = none := by
      rw [List.find?_eq_none]
      intro p hp hpid
      exact hany (List.any_eq_true.mpr ⟨p, hp, hpid⟩)
    rw [find?_append_singleton_self _ _ _ hnone]
    rfl

theorem lookupGen_setGen_other (st : MapState) (id : String) (v : Int) {x : String}
    (hx : x ≠ id) : lookupGen (setGen st id v) x = lookupGen st x := by
  unfold lookupGen setGen
  by_cases hany : (st.memberGenerations.any fun p => p.1 == id) = true
  · rw [if_pos hany]
    show ((st.memberGenerations.map fun p => if p.1 == id then (id, v) else p).find?
      fun p => p.1 == x).map (·.2) = _
    rw [find?_map_set_other _ _ _ hx]
  · rw [if_neg hany]
    show ((st.memberGenerations ++ [(id, v)]).find? fun p => p.1 == x).map (·.2) = _
    rw [find?_append_singleton_ne _ _ _ hx]

theorem visitMember_visited (st : MapState) (m : FamilyMember) (g : Int) :
    (visitMember st m g).visited = st.visited ++ [m.id] := by
  unfold visitMember
  rw [setGen_visited]

theorem lookupGen_visitMember_self (st : MapState) (m : FamilyMember) (g : Int) :
    lookupGen (visitMember st m g) m.id = some (maxOpt (lookupGen st m.id) g) := by
  unfold visitMember
  show lookupGen (setGen _ m.id _) m.id = _
  rw [lookupGen_setGen_self]
  cases h : lookupGen st m.id with
  | none =>
    show some (max ((lookupGen { st with visited := st.visited ++ [m.id] } m.id).getD g) g) = _
    have : lookupGen { st with visited := st.visited ++ [m.id] } m.id = lookupGen st m.id := rfl
    rw [this, h]
    simp [maxOpt]
  | some w =>
    show some (max ((lookupGen { st with visited := st.visited ++ [m.id] } m.id).getD g) g) = _
    have : lookupGen { st with visited := st.visited ++ [m.id] } m.id = lookupGen st m.id := rfl
    rw [this, h]
    simp [maxOpt]

theorem lookupGen_visitMember_other (st : MapState) (m : FamilyMember) (g : Int) {x : String}
    (hx : x ≠ m.id) : lookupGen (visitMember st m g) x = lookupGen st x := by
  unfold visitMember
  show lookupGen (setGen _ m.id _) x = _
  rw [lookupGen_setGen_other _ _ _ hx]
  rfl

/- ### Termination of the generation traversal (second half of claim C5) -/

theorem propagateWith_visited_mono {members : List FamilyMember}
    {rec : FamilyMember → Int → MapState → Option MapState}
    (hrec : ∀ m g st st', rec m g st = some st' → ∀ v ∈ st.visited, v ∈ st'.visited) :
    ∀ {ids : List String} {gen : Int} {st st' : MapState},
      propagateWith members rec ids gen st = some st' → ∀ v ∈ st.visited, v ∈ st'.visited := by
  intro ids
  induction ids with
  | nil =>
    intro gen st st' h
    cases h
    exact fun v hv => hv
  | cons id ids ih =>
    intro gen st st' h
    unfold propagateWith at h
    split at h
    next m hl =>
      split at h
      next hr => cases h
      next st2 hr => exact fun v hv => ih h v (hrec _ _ _ _ hr v hv)
    next hl => exact ih h

theorem assignF_visited_mono {members : List FamilyMember} :
    ∀ {fuel : Nat} {m : FamilyMember} {g : Int} {st st' : MapState},
      assignGenerationF members fuel m g st = some st' → ∀ v ∈ st.visited, v ∈ st'.visited := by
  intro fuel
  induction fuel with
  | zero =>
    intro m g st st' h
    cases h
  | succ k ih =>
    intro m g st st' h
    unfold assignGenerationF at h
    by_cases hv : st.visited.contains m.id = true
    · rw [if_pos hv] at h
      cases h
      exact fun v hv => hv
    · rw [if_neg hv] at h
      split at h
      next hp1 => cases h
      next st4 hp1 =>
        split at h
        next hp2 => cases h
        next st5 hp2 =>
          split at h
          next hp3 => cases h
          next st6 hp3 =>
            intro v hv7
            have h0 : v ∈ (visitMember st m g).visited := by
              rw [visitMember_visited]
              exact List.mem_append_left _ hv7
            have h1 := propagateWith_visited_mono (fun a b c d he => ih he) hp1 v h0
            have h2 := propagateWith_visited_mono (fun a b c d he => ih he) hp2 v h1
            have h3 := propagateWith_visited_mono (fun a b c d he => ih he) hp3 v h2
            exact propagateWith_visited_mono (fun a b c d he => ih he) h v h3

theorem unvisited_le_of_subset (members : List FamilyMember) {v1 v2 : List String}
    (h : ∀ x ∈ v1, x ∈ v2) :
    layoutUnvisitedCount members v2 ≤ layoutUnvisitedCount members v1 := by
  unfold layoutUnvisitedCount
  apply List.Sublist.length_le
  apply filter_sublist_of_imp
  intro a ha
  simp only [Bool.not_eq_true'] at ha ⊢
  cases hcase : v1.contains a
  · rfl
  · have h4 := contains_eq_true_of_mem (h a (mem_of_contains_eq_true hcase))
    rw [h4] at ha
    cases ha

theorem unvisited_lt_append (members : List FamilyMember) {visited : List String} {a : String}
    (hmem : a ∈ memberIds members) (hnv : a ∉ visited) :
    layoutUnvisitedCount members (visited ++ [a]) < layoutUnvisitedCount members visited := by
  unfold layoutUnvisitedCount
  have hsub : List.Sublist
      ((members.map (·.id)).filter fun i => !(visited ++ [a]).contains i)
      ((members.map (·.id)).filter fun i => !visited.contains i) := by
    apply filter_sublist_of_imp
    intro x hx
    simp only [Bool.not_eq_true'] at hx ⊢
    cases hcase : visited.contains x
    · rfl
    · have h4 := contains_eq_true_of_mem
        (List.mem_append_left [a] (mem_of_contains_eq_true hcase))
      rw [h4] at hx
      cases hx
  rcases Nat.eq_or_lt_of_le hsub.length_le with heq | hlt
  · exfalso
    have hleq := hsub.eq_of_length heq
    have hmemold : a ∈ (members.map (·.id)).filter fun i => !visited.contains i := by
      rw [List.mem_filter]
      refine ⟨hmem, ?_⟩
      rw [Bool.not_eq_true']
      cases hcase : visited.contains a
      · rfl
      · exact absurd (mem_of_contains_eq_true hcase) hnv
    rw [← hleq] at hmemold
    have hmemnew := (List.mem_filter.mp hmemold).2
    have h5 := contains_eq_true_of_mem
      (List.mem_append_right visited (show a ∈ [a] from List.mem_singleton.mpr rfl))
    rw [Bool.not_eq_true', h5] at hmemnew
    cases hmemnew
  · exact hlt

theorem unvisited_le_length (members : List FamilyMember) (visited : List String) :
    layoutUnvisitedCount members visited ≤ members.length := by
  unfold layoutUnvisitedCount
  calc ((members.map (·.id)).filter fun i => !visited.contains i).length
      ≤ (members.map (·.id)).length := List.length_filter_le _ _
    _ = members.length := List.length_map _ _

theorem assign_propagate_isSome (members : List FamilyMember) :
    ∀ fuel : Nat,
      (∀ (m : FamilyMember) (g : Int) (st : MapState), m ∈ members →
        layoutUnvisitedCount members st.visited + 1 ≤ fuel →
        (assignGenerationF members fuel m g st).isSome = true) ∧
      (∀ (ids : List String) (gen : Int) (st : MapState),
        layoutUnvisitedCount members st.visited + 1 ≤ fuel →
        (propagateWith members (assignGenerationF members fuel) ids gen st).isSome = true) := by
  intro fuel
  induction fuel with
  | zero =>
    constructor
    · intro m g st _ hf
      omega
    · intro ids gen st hf
      omega
  | succ k ih =>
    have hA : ∀ (m : FamilyMember) (g : Int) (st : MapState), m ∈ members →
        layoutUnvisitedCount members st.visited + 1 ≤ k + 1 →
        (assignGenerationF members (k + 1) m g st).isSome = true := by
      intro m g st hm hf
      unfold assignGenerationF
      by_cases hv : st.visited.contains m.id = true
      · rw [if_pos hv]
        rfl
      · rw [if_neg hv]
        have hmid : m.id ∈ memberIds members := List.mem_map_of_mem (·.id) hm
        have hnv : m.id ∉ st.visited := fun hmm => by
          rw [contains_eq_true_of_mem hmm] at hv
          exact hv rfl
        have hlt := unvisited_lt_append members hmid hnv
        have hb1 : layoutUnvisitedCount members (visitMember st m g).visited + 1 ≤ k := by
          rw [visitMember_visited]
          omega
        cases hp1 : propagateWith members (assignGenerationF members k)
            m.relationships.parents (g + 1) (visitMember st m g) with
        | none =>
          have := (ih).2 m.relationships.parents (g + 1) (visitMember st m g) hb1
          rw [hp1] at this
          exact absurd this (by simp)
        | some st4 =>
          dsimp only
          have hm1 : ∀ v ∈ (visitMember st m g).visited, v ∈ st4.visited :=
            propagateWith_visited_mono (fun a b c d he => assignF_visited_mono he) hp1
          have hb2 : layoutUnvisitedCount members st4.visited + 1 ≤ k := by
            have := unvisited_le_of_subset members hm1
            omega
          cases hp2 : propagateWith members (assignGenerationF members k)
              m.relationships.children (g - 1) st4 with
          | none =>
            have := (ih).2 m.relationships.children (g - 1) st4 hb2
            rw [hp2] at this
            exact absurd this (by simp)
          | some st5 =>
            dsimp only
            have hm2 : ∀ v ∈ st4.visited, v ∈ st5.visited :=
              propagateWith_visited_mono (fun a b c d he => assignF_visited_mono he) hp2
            have hb3 : layoutUnvisitedCount members st5.visited + 1 ≤ k := by
              have := unvisited_le_of_subset members hm2
              omega
            cases hp3 : propagateWith members (assignGenerationF members k)
                m.relationships.siblings g st5 with
            | none =>
              have := (ih).2 m.relationships.siblings g st5 hb3
              rw [hp3] at this
              exact absurd this (by simp)
            | some st6 =>
              dsimp only
              have hm3 : ∀ v ∈ st5.visited, v ∈ st6.visited :=
                propagateWith_visited_mono (fun a b c d he => assignF_visited_mono he) hp3
              have hb4 : layoutUnvisitedCount members st6.visited + 1 ≤ k := by
                have := unvisited_le_of_subset members hm3
                omega
              have := (ih).2 m.relationships.spouses g st6 hb4
              exact this
    refine ⟨hA, ?_⟩
    intro ids
    induction ids with
    | nil =>
      intro gen st hf
      rfl
    | cons id ids ihids =>
      intro gen st hf
      unfold propagateWith
      cases hl : lookupMember members id with
      | some m =>
        dsimp only
        have hmmem : m ∈ members := List.mem_of_find?_eq_some hl
        cases hr : assignGenerationF members (k + 1) m gen st with
        | none =>
          have := hA m gen st hmmem hf
          rw [hr] at this
          exact absurd this (by simp)
        | some st2 =>
          dsimp only
          apply ihids
          have hmono : ∀ v ∈ st.visited, v ∈ st2.visited := assignF_visited_mono hr
          have := unvisited_le_of_subset members hmono
          omega
      | none =>
        dsimp only
        exact ihids gen st hf

theorem assignF_isSome_big (members : List FamilyMember) (m : FamilyMember) (g : Int)
    (st : MapState) : (assignGenerationF members (assignFuel members) m g st).isSome = true := by
  have hfuel : assignFuel members = members.length + 1 + 1 := rfl
  rw [hfuel]
  unfold assignGenerationF
  by_cases hv : st.visited.contains m.id = true
  · rw [if_pos hv]
    rfl
  · rw [if_neg hv]
    have hIH := assign_propagate_isSome members (members.length + 1)
    have hb1 : layoutUnvisitedCount members (visitMember st m g).visited + 1 ≤
        members.length + 1 := by
      have := unvisited_le_length members (visitMember st m g).visited
      omega
    cases hp1 : propagateWith members (assignGenerationF members (members.length + 1))
        m.relationships.parents (g + 1) (visitMember st m g) with
    | none =>
      have := hIH.2 m.relationships.parents (g + 1) (visitMember st m g) hb1
      rw [hp1] at this
      exact absurd this (by simp)
    | some st4 =>
      dsimp only
      have hb2 : layoutUnvisitedCount members st4.visited + 1 ≤ members.length + 1 := by
        have := unvisited_le_length members st4.visited
        omega
      cases hp2 : propagateWith members (assignGenerationF members (members.length + 1))
          m.relationships.children (g - 1) st4 with
      | none =>
        have := hIH.2 m.relationships.children (g - 1) st4 hb2
        rw [hp2] at this
        exact absurd this (by simp)
      | some st5 =>
        dsimp only
        have hb3 : layoutUnvisitedCount members st5.visited + 1 ≤ members.length + 1 := by
          have := unvisited_le_length members st5.visited
          omega
        cases hp3 : propagateWith members (assignGenerationF members (members.length + 1))
            m.relationships.siblings g st5 with
        | none =>
          have := hIH.2 m.relationships.siblings g st5 hb3
          rw [hp3] at this
          exact absurd this (by simp)
        | some st6 =>
          dsimp only
          have hb4 : layoutUnvisitedCount members st6.visited + 1 ≤ members.length + 1 := by
            have := unvisited_le_length members st6.visited
            omega
          exact hIH.2 m.relationships.spouses g st6 hb4

theorem runAssignAll_isSome (members : List FamilyMember) (focus : FamilyMember) :
    (runAssignAll members focus).isSome = true := by
  unfold runAssignAll
  cases h1 : assignGenerationF members (assignFuel members) focus 0 ⟨[], [], []⟩ with
  | none =>
    have := assignF_isSome_big members focus 0 ⟨[], [], []⟩
    rw [h1] at this
    exact absurd this (by simp)
  | some st1 =>
    dsimp only
    have hfold : ∀ (l : List FamilyMember) (st : MapState),
        (l.foldl (fun acc mem =>
          match acc with
          | none => none
          | some st0 =>
            if (lookupGen st0 mem.id).isSome then some st0
            else assignGenerationF members (assignFuel members) mem 0
              { st0 with visited := [] }) (some st)).isSome = true := by
      intro l
      induction l with
      | nil => intro st; rfl
      | cons mem l ihl =>
        intro st
        rw [List.foldl_cons]
        by_cases hm : (lookupGen st mem.id).isSome = true
        · rw [show (match some st with
              | none => none
              | some st0 =>
                if (lookupGen st0 mem.id).isSome then some st0
                else assignGenerationF members (assignFuel members) mem 0
                  { st0 with visited := [] }) = some st from by
            dsimp only
            rw [if_pos hm]]
          exact ihl st
        · rw [show (match some st with
              | none => none
              | some st0 =>
                if (lookupGen st0 mem.id).isSome then some st0
                else assignGenerationF members (assignFuel members) mem 0
                  { st0 with visited := [] }) =
              assignGenerationF members (assignFuel members) mem 0
                { st with visited := [] } from by
            dsimp only
            rw [if_neg hm]]
          cases h2 : assignGenerationF members (assignFuel members) mem 0
              { st with visited := [] } with
          | none =>
            have := assignF_isSome_big members mem 0 { st with visited := [] }
            rw [h2] at this
            exact absurd this (by simp)
          | some st2 =>
            have := ihl st2
            rw [← h2]
            exact h2 ▸ this
    exact hfold members st1

/- ### Claim C5 -/

/-- C5: both traversal computations terminate for every finite roster,
cyclic edge sets included.  With the fuel `assignFuel` (roster length
plus two) the recursive `assignGeneration` traversal never exhausts its
fuel (the per-traversal visited set grows at every productive call), the
whole generation-assignment phase succeeds, and the
generation-by-generation while loop exits within its fuel because every
iteration either visits a new member or empties the worklist; the kinship
resolver is a total (non-recursive) function by construction. -/
theorem traversals_terminate :
    (∀ (members : List FamilyMember) (m : FamilyMember) (g : Int) (st : MapState),
      (assignGenerationF members (assignFuel members) m g st).isSome = true) ∧
    (∀ (members : List FamilyMember) (focus : FamilyMember),
      (runAssignAll members focus).isSome = true) ∧
    (∀ members : List FamilyMember,
      (layoutLoop members (members.length + 2) (initialLayoutState members)).isSome = true) := by
  refine ⟨assignF_isSome_big, runAssignAll_isSome, ?_⟩
  intro members
  apply layoutLoop_isSome
  have h1 : (initialLayoutState members).visited = [] := rfl
  rw [h1]
  have := unvisited_le_length members []
  omega

/- ### Claim C1 -/

/-- The generation number the mapper assigns to the given id (through the
seed choice of `generateRelationshipMap`). -/
def assignedGeneration (members : List FamilyMember) (focusMember : Option FamilyMember)
    (id : String) : Option Int :=
  match members with
  | [] => none
  | first :: _ =>
    match runAssignAll members (focusMember.getD first) with
    | some st => lookupGen st id
    | none => none

/-- Counterexample to C1 as stated: in the roster
`[m1 {siblings: [m2]}, m2 {parents: [m1]}]` the traversal reaches `m1`
at generation 0, then `m2` through the sibling edge at generation 0, and
the parent edge of `m2` back to `m1` is cut off by the visited set - so the
parent `m1` ends at generation 0, not at least `0 + 1`. -/
theorem relmap_generation_monotonicity_counterexample :
    ("m1" : String) ∈ (⟨"m2", "M2", .male, ⟨["m1"], [], [], []⟩⟩ :
      FamilyMember).relationships.parents ∧
    assignedGeneration [⟨"m1", "M1", .male, ⟨[], ["m2"], [], []⟩⟩,
      ⟨"m2", "M2", .male, ⟨["m1"], [], [], []⟩⟩] none "m2" = some 0 ∧
    assignedGeneration [⟨"m1", "M1", .male, ⟨[], ["m2"], [], []⟩⟩,
      ⟨"m2", "M2", .male, ⟨["m1"], [], [], []⟩⟩] none "m1" = some 0 ∧
    ¬((0 : Int) ≥ 0 + 1) :=
  ⟨by decide, by decide, by decide, by decide⟩

/-- A grading of the roster: an integer potential on ids consistent with
every recorded edge whose endpoint resolves to a roster member (parents
one higher, children one lower, siblings and spouses equal).  Any
symmetric, acyclic roster that describes a consistent family - in
particular every forest of ordinary parent/child families - is graded by
taking depth below the oldest ancestor. -/
def Graded (members : List FamilyMember) (φ : String → Int) : Prop :=
  ∀ m ∈ members,
    (∀ pid ∈ m.relationships.parents, pid ∈ memberIds members → φ pid = φ m.id + 1) ∧
    (∀ cid ∈ m.relationships.children, cid ∈ memberIds members → φ cid = φ m.id - 1) ∧
    (∀ sid ∈ m.relationships.siblings, sid ∈ memberIds members → φ sid = φ m.id) ∧
    (∀ sid ∈ m.relationships.spouses, sid ∈ memberIds members → φ sid = φ m.id)

instance (members : List FamilyMember) (φ : String → Int) : Decidable (Graded members φ) := by
  unfold Graded
  infer_instance

/-- Relation between the mapper states before and after part of a
traversal whose proposals are `φ · + c`: visited only grows; a newly
visited id has its stored generation raised to the proposal; ids not
newly visited keep their stored generation; and the resolvable parents
of a newly visited member are visited too by the end. -/
def TravInv (members : List FamilyMember) (φ : String → Int) (c : Int)
    (st st' : MapState) : Prop :=
  (∀ v ∈ st.visited, v ∈ st'.visited) ∧
  (∀ v, v ∈ st'.visited → v ∉ st.visited →
    lookupGen st' v = some (maxOpt (lookupGen st v) (φ v + c))) ∧
  (∀ v, v ∈ st.visited ∨ v ∉ st'.visited → lookupGen st' v = lookupGen st v) ∧
  (∀ x ∈ members, x.id ∈ st'.visited → x.id ∉ st.visited →
    ∀ pid ∈ x.relationships.parents, pid ∈ memberIds members → pid ∈ st'.visited)

theorem TravInv.refl (members : List FamilyMember) (φ : String → Int) (c : Int)
    (st : MapState) : TravInv members φ c st st :=
  ⟨fun _ hv => hv, fun v hv hnv => absurd hv hnv, fun _ _ => rfl,
    fun _ _ hx hnx => absurd hx hnx⟩

theorem TravInv.trans {members : List FamilyMember} {φ : String → Int} {c : Int}
    {st1 st2 st3 : MapState} (h12 : TravInv members φ c st1 st2)
    (h23 : TravInv members φ c st2 st3) : TravInv members φ c st1 st3 := by
  obtain ⟨a12, b12, c12, d12⟩ := h12
  obtain ⟨a23, b23, c23, d23⟩ := h23
  refine ⟨fun v hv => a23 v (a12 v hv), ?_, ?_, ?_⟩
  · intro v hv3 hnv1
    by_cases hv2 : v ∈ st2.visited
    · rw [c23 v (Or.inl hv2)]
      exact b12 v hv2 hnv1
    · rw [b23 v hv3 hv2, c12 v (Or.inr hv2)]
  · intro v hv
    rcases hv with hv1 | hnv3
    · rw [c23 v (Or.inl (a12 v hv1)), c12 v (Or.inl hv1)]
    · have hnv2 : v ∉ st2.visited := fun h2 => hnv3 (a23 v h2)
      rw [c23 v (Or.inr hnv3), c12 v (Or.inr hnv2)]
  · intro x hx hx3 hnx1
    by_cases hx2 : x.id ∈ st2.visited
    · exact fun pid hpid hpm => a23 pid (d12 x hx hx2 hnx1 pid hpid hpm)
    · exact d23 x hx hx3 hx2

theorem lookupMember_id {members : List FamilyMember} {id : String} {x : FamilyMember}
    (h : lookupMember members id = some x) : x ∈ members ∧ x.id = id := by
  constructor
  · exact List.mem_of_find?_eq_some h
  · have h2 := List.find?_some h
    simpa using h2

theorem lookupMember_isSome_of_mem_ids {members : List FamilyMember} {id : String}
    (h : id ∈ memberIds members) : ∃ x, lookupMember members id = some x := by
  unfold memberIds at h
  obtain ⟨m, hm, rfl⟩ := List.mem_map.mp h
  have h2 : (members.find? fun mem => mem.id == m.id).isSome = true :=
    List.find?_isSome.mpr ⟨m, hm, by simp⟩
  exact Option.isSome_iff_exists.mp h2

theorem propagate_travInv {members : List FamilyMember} {φ : String → Int} {c : Int}
    {rec : FamilyMember → Int → MapState → Option MapState}
    (hrec : ∀ m g st st', rec m g st = some st' → m ∈ members → g = φ m.id + c →
      TravInv members φ c st st' ∧ m.id ∈ st'.visited) :
    ∀ {ids : List String} {gen : Int} {st st' : MapState},
      propagateWith members rec ids gen st = some st' →
      (∀ id ∈ ids, ∀ x, lookupMember members id = some x → gen = φ x.id + c) →
      TravInv members φ c st st' ∧
        ∀ id ∈ ids, id ∈ memberIds members → id ∈ st'.visited := by
  intro ids
  induction ids with
  | nil =>
    intro gen st st' h _
    cases h
    exact ⟨TravInv.refl _ _ _ _, fun id hid => absurd hid (List.not_mem_nil id)⟩
  | cons id0 ids ih =>
    intro gen st st' h hgen
    unfold propagateWith at h
    split at h
    next x hl =>
      split at h
      next hr => cases h
      next st2 hr =>
        obtain ⟨hxmem, hxid⟩ := lookupMember_id hl
        have hA := hrec _ _ _ _ hr hxmem (hgen id0 (List.mem_cons_self id0 ids) x hl)
        have hB := ih h fun i hi y hy => hgen i (List.mem_cons_of_mem id0 hi) y hy
        refine ⟨hA.1.trans hB.1, ?_⟩
        intro i hi hmem
        rcases List.mem_cons.mp hi with rfl | hi'
        · exact hB.1.1 i (hxid ▸ hA.2)
        · exact hB.2 i hi' hmem
    next hl =>
      have hB := ih h fun i hi y hy => hgen i (List.mem_cons_of_mem id0 hi) y hy
      refine ⟨hB.1, ?_⟩
      intro i hi hmem
      rcases List.mem_cons.mp hi with rfl | hi'
      · obtain ⟨x, hx⟩ := lookupMember_isSome_of_mem_ids hmem
        rw [hx] at hl
        cases hl
      · exact hB.2 i hi' hmem

theorem assignF_travInv {members : List FamilyMember} {φ : String → Int} {c : Int}
    (hg : Graded members φ) (hnd : (memberIds members).Nodup) :
    ∀ {fuel : Nat} {m : FamilyMember} {g : Int} {st st' : MapState},
      assignGenerationF members fuel m g st = some st' →
      m ∈ members → g = φ m.id + c →
      TravInv members φ c st st' ∧ m.id ∈ st'.visited := by
  intro fuel
  induction fuel with
  | zero =>
    intro m g st st' h _ _
    cases h
  | succ k ih =>
    intro m g st st' h hm hgc
    unfold assignGenerationF at h
    by_cases hv : st.visited.contains m.id = true
    · rw [if_pos hv] at h
      cases h
      exact ⟨TravInv.refl _ _ _ _, mem_of_contains_eq_true hv⟩
    · rw [if_neg hv] at h
      have hnvm : m.id ∉ st.visited := fun hmm => hv (contains_eq_true_of_mem hmm)
      split at h
      next hp1 => cases h
      next st4 hp1 =>
        split at h
        next hp2 => cases h
        next st5 hp2 =>
          split at h
          next hp3 => cases h
          next st6 hp3 =>
            have hgen1 : ∀ pid ∈ m.relationships.parents, ∀ x,
                lookupMember members pid = some x → g + 1 = φ x.id + c := by
              intro pid hpid x hx
              obtain ⟨hxm, hxid⟩ := lookupMember_id hx
              have hpm : pid ∈ memberIds members := hxid ▸ List.mem_map_of_mem (·.id) hxm
              have hφ := (hg m hm).1 pid hpid hpm
              rw [hxid, hφ, hgc]
              omega
            have hgen2 : ∀ cid ∈ m.relationships.children, ∀ x,
                lookupMember members cid = some x → g - 1 = φ x.id + c := by
              intro cid hcid x hx
              obtain ⟨hxm, hxid⟩ := lookupMember_id hx
              have hpm : cid ∈ memberIds members := hxid ▸ List.mem_map_of_mem (·.id) hxm
              have hφ := (hg m hm).2.1 cid hcid hpm
              rw [hxid, hφ, hgc]
              omega
            have hgen3 : ∀ sid ∈ m.relationships.siblings, ∀ x,
                lookupMember members sid = some x → g = φ x.id + c := by
              intro sid hsid x hx
              obtain ⟨hxm, hxid⟩ := lookupMember_id hx
              have hpm : sid ∈ memberIds members := hxid ▸ List.mem_map_of_mem (·.id) hxm
              have hφ := (hg m hm).2.2.1 sid hsid hpm
              rw [hxid, hφ, hgc]
            have hgen4 : ∀ sid ∈ m.relationships.spouses, ∀ x,
                lookupMember members sid = some x → g = φ x.id + c := by
              intro sid hsid x hx
              obtain ⟨hxm, hxid⟩ := lookupMember_id hx
              have hpm : sid ∈ memberIds members := hxid ▸ List.mem_map_of_mem (·.id) hxm
              have hφ := (hg m hm).2.2.2 sid hsid hpm
              rw [hxid, hφ, hgc]
            have hrec : ∀ m1 g1 s1 s1', assignGenerationF members k m1 g1 s1 = some s1' →
                m1 ∈ members → g1 = φ m1.id + c →
                TravInv members φ c s1 s1' ∧ m1.id ∈ s1'.visited :=
              fun m1 g1 s1 s1' he hm1 hg1 => ih he hm1 hg1
            have T1 := propagate_travInv hrec hp1 hgen1
            have T2 := propagate_travInv hrec hp2 hgen2
            have T3 := propagate_travInv hrec hp3 hgen3
            have T4 := propagate_travInv hrec h hgen4
            have Tall : TravInv members φ c (visitMember st m g) st' :=
              T1.1.trans (T2.1.trans (T3.1.trans T4.1))
            have hWv : (visitMember st m g).visited = st.visited ++ [m.id] :=
              visitMember_visited st m g
            have hWm : m.id ∈ (visitMember st m g).visited := by
              rw [hWv]
              exact List.mem_append_right _ (List.mem_singleton.mpr rfl)
            have hmidfin : m.id ∈ st'.visited := Tall.1 m.id hWm
            refine ⟨⟨?_, ?_, ?_, ?_⟩, hmidfin⟩
            · intro v hv0
              apply Tall.1
              rw [hWv]
              exact List.mem_append_left _ hv0
            · intro v hv' hnv
              by_cases hvm : v = m.id
              · subst hvm
                rw [Tall.2.2.1 m.id (Or.inl hWm), lookupGen_visitMember_self st m g, hgc]
              · have hvW : v ∉ (visitMember st m g).visited := by
                  rw [hWv]
                  intro hmm
                  rcases List.mem_append.mp hmm with h1 | h1
                  · exact hnv h1
                  · exact hvm (List.mem_singleton.mp h1)
                rw [Tall.2.1 v hv' hvW, lookupGen_visitMember_other st m g hvm]
            · intro v hv0
              have hvm : v ≠ m.id := by
                rcases hv0 with h1 | h1
                · exact fun he => hnvm (he ▸ h1)
                · exact fun he => h1 (he ▸ hmidfin)
              have heq : lookupGen st' v = lookupGen (visitMember st m g) v := by
                apply Tall.2.2.1
                rcases hv0 with h1 | h1
                · exact Or.inl (by rw [hWv]; exact List.mem_append_left _ h1)
                · exact Or.inr h1
              rw [heq, lookupGen_visitMember_other st m g hvm]
            · intro x hx hxv' hxnv
              by_cases hxm : x.id = m.id
              · have hxeq : x = m := eq_of_mem_nodup_ids hnd hx hm hxm
                subst hxeq
                intro pid hpid hpm
                have h4 : pid ∈ st4.visited := T1.2 pid hpid hpm
                exact T4.1.1 pid (T3.1.1 pid (T2.1.1 pid h4))
              · have hxW : x.id ∉ (visitMember st m g).visited := by
                  rw [hWv]
                  intro hmm
                  rcases List.mem_append.mp hmm with h1 | h1
                  · exact hxnv h1
                  · exact hxm (List.mem_singleton.mp h1)
                exact Tall.2.2.2 x hx hxv' hxW

/-- The monotonicity property of a (partial) generation assignment: every
resolvable parent of an assigned member is assigned at least one generation
higher. -/
def MonoInv (members : List FamilyMember) (st : MapState) : Prop :=
  ∀ a ∈ members, ∀ pid ∈ a.relationships.parents, ∀ b ∈ members, b.id = pid →
    ∀ ga, lookupGen st a.id = some ga →
      ∃ gb, lookupGen st b.id = some gb ∧ ga + 1 ≤ gb

theorem topCall_monoInv {members : List FamilyMember} {φ : String → Int}
    (hg : Graded members φ) (hnd : (memberIds members).Nodup)
    {m : FamilyMember} {st st' : MapState} (hm : m ∈ members)
    (h : assignGenerationF members (assignFuel members) m 0 { st with visited := [] } = some st')
    (hmono : MonoInv members st) :
    MonoInv members st' ∧
      (∀ x gx, lookupGen st x = some gx → ∃ gx', lookupGen st' x = some gx' ∧ gx ≤ gx') ∧
      (lookupGen st' m.id).isSome = true := by
  have hT := assignF_travInv (c := -φ m.id) hg hnd h hm (by omega)
  obtain ⟨⟨S1, S2, S3, S4⟩, hmv⟩ := hT
  have hS2 : ∀ v ∈ st'.visited,
      lookupGen st' v = some (maxOpt (lookupGen st v) (φ v + -φ m.id)) :=
    fun v hv => S2 v hv (List.not_mem_nil v)
  have hS3 : ∀ v, v ∉ st'.visited → lookupGen st' v = lookupGen st v :=
    fun v hv => S3 v (Or.inr hv)
  have hS4 : ∀ x ∈ members, x.id ∈ st'.visited →
      ∀ pid ∈ x.relationships.parents, pid ∈ memberIds members → pid ∈ st'.visited :=
    fun x hx hxv => S4 x hx hxv (List.not_mem_nil _)
  refine ⟨?_, ?_, ?_⟩
  · intro a ha pid hpid b hb hbid ga' hga'
    have hpm : pid ∈ memberIds members := hbid ▸ List.mem_map_of_mem (·.id) hb
    have hφ : φ pid = φ a.id + 1 := (hg a ha).1 pid hpid hpm
    have hφb : φ b.id = φ a.id + 1 := by rw [hbid]; exact hφ
    by_cases hav : a.id ∈ st'.visited
    · have hae := hS2 a.id hav
      rw [hga'] at hae
      have hga'' : ga' = maxOpt (lookupGen st a.id) (φ a.id + -φ m.id) :=
        Option.some_injective _ hae
      have hbv : b.id ∈ st'.visited := by
        rw [hbid]
        exact hS4 a ha hav pid hpid hpm
      have hbe := hS2 b.id hbv
      refine ⟨maxOpt (lookupGen st b.id) (φ b.id + -φ m.id), hbe, ?_⟩
      cases hsa : lookupGen st a.id with
      | none =>
        rw [hsa] at hga''
        have h1 : φ b.id + -φ m.id ≤ maxOpt (lookupGen st b.id) (φ b.id + -φ m.id) := by
          cases lookupGen st b.id with
          | none => exact le_refl _
          | some w => exact le_max_right w _
        simp only [maxOpt] at hga''
        omega
      | some oa =>
        obtain ⟨ob, hob1, hob2⟩ := hmono a ha pid hpid b hb hbid oa hsa
        rw [hsa] at hga''
        rw [hob1]
        have h1 : ob ≤ max ob (φ b.id + -φ m.id) := le_max_left _ _
        have h2 : φ b.id + -φ m.id ≤ max ob (φ b.id + -φ m.id) := le_max_right _ _
        simp only [maxOpt] at hga'' ⊢
        rcases max_choice oa (φ a.id + -φ m.id) with hmx | hmx <;> omega
    · have hae := hS3 a.id hav
      rw [hae] at hga'
      obtain ⟨ob, hob1, hob2⟩ := hmono a ha pid hpid b hb hbid ga' hga'
      by_cases hbv : b.id ∈ st'.visited
      · have hbe := hS2 b.id hbv
        rw [hob1] at hbe
        refine ⟨max ob (φ b.id + -φ m.id), hbe, ?_⟩
        have h1 : ob ≤ max ob (φ b.id + -φ m.id) := le_max_left _ _
        omega
      · refine ⟨ob, ?_, hob2⟩
        rw [hS3 b.id hbv]
        exact hob1
  · intro x gx hgx
    by_cases hxv : x ∈ st'.visited
    · have hxe := hS2 x hxv
      rw [hgx] at hxe
      refine ⟨max gx (φ x + -φ m.id), hxe, le_max_left _ _⟩
    · refine ⟨gx, ?_, le_refl _⟩
      rw [hS3 x hxv]
      exact hgx
  · rw [hS2 m.id hmv]
    rfl

theorem fold_monoInv {members : List FamilyMember} {φ : String → Int}
    (hg : Graded members φ) (hnd : (memberIds members).Nodup) :
    ∀ (l : List FamilyMember) (st : MapState), (∀ x ∈ l, x ∈ members) →
      MonoInv members st →
      ∀ st', (l.foldl (fun acc mem =>
          match acc with
          | none => none
          | some st0 =>
            if (lookupGen st0 mem.id).isSome then some st0
            else assignGenerationF members (assignFuel members) mem 0
              { st0 with visited := [] }) (some st)) = some st' →
      MonoInv members st' ∧
        (∀ x gx, lookupGen st x = some gx → ∃ gx', lookupGen st' x = some gx' ∧ gx ≤ gx') ∧
        (∀ mem ∈ l, (lookupGen st' mem.id).isSome = true) := by
  intro l
  induction l with
  | nil =>
    intro st _ hmono st' h
    cases h
    exact ⟨hmono, fun x gx hx => ⟨gx, hx, le_refl _⟩,
      fun mem hmem => absurd hmem (List.not_mem_nil mem)⟩
  | cons mem l ihl =>
    intro st hsub hmono st' h
    rw [List.foldl_cons] at h
    by_cases hlk : (lookupGen st mem.id).isSome = true
    · rw [show (match some st with
          | none => none
          | some st0 =>
            if (lookupGen st0 mem.id).isSome then some st0
            else assignGenerationF members (assignFuel members) mem 0
              { st0 with visited := [] }) = some st from by
          dsimp only
          rw [if_pos hlk]] at h
      have hres := ihl st (fun x hx => hsub x (List.mem_cons_of_mem mem hx)) hmono st' h
      refine ⟨hres.1, hres.2.1, ?_⟩
      intro mem0 hmem0
      rcases List.mem_cons.mp hmem0 with rfl | hmem0'
      · obtain ⟨gx, hgx⟩ := Option.isSome_iff_exists.mp hlk
        obtain ⟨gx', hgx', _⟩ := hres.2.1 mem0.id gx hgx
        rw [hgx']
        rfl
      · exact hres.2.2 mem0 hmem0'
    · rw [show (match some st with
          | none => none
          | some st0 =>
            if (lookupGen st0 mem.id).isSome then some st0
            else assignGenerationF members (assignFuel members) mem 0
              { st0 with visited := [] }) =
          assignGenerationF members (assignFuel members) mem 0
            { st with visited := [] } from by
          dsimp only
          rw [if_neg hlk]] at h
      cases hcall : assignGenerationF members (assignFuel members) mem 0
          { st with visited := [] } with
      | none =>
        have := assignF_isSome_big members mem 0 { st with visited := [] }
        rw [hcall] at this
        exact absurd this (by simp)
      | some st2 =>
        rw [hcall] at h
        have hmem : mem ∈ members := hsub mem (List.mem_cons_self mem l)
        have hC := topCall_monoInv hg hnd hmem hcall hmono
        have hres := ihl st2 (fun x hx => hsub x (List.mem_cons_of_mem mem hx)) hC.1 st' h
        refine ⟨hres.1, ?_, ?_⟩
        · intro x gx hgx
          obtain ⟨gx2, hgx2, hle2⟩ := hC.2.1 x gx hgx
          obtain ⟨gx3, hgx3, hle3⟩ := hres.2.1 x gx2 hgx2
          exact ⟨gx3, hgx3, le_trans hle2 hle3⟩
        · intro mem0 hmem0
          rcases List.mem_cons.mp hmem0 with rfl | hmem0'
          · obtain ⟨gx, hgx⟩ := Option.isSome_iff_exists.mp hC.2.2
            obtain ⟨gx', hgx', _⟩ := hres.2.1 mem0.id gx hgx
            rw [hgx']
            rfl
          · exact hres.2.2 mem0 hmem0'

/-- C1 amended: generation monotonicity holds for graded rosters.  For
every roster with unique ids whose edges are consistent with some integer
potential (parents one generation up, children one down, siblings and
spouses level - satisfied by every consistent family forest), and for
every members A, B with B recorded in the `parents` of A, the generation
assignment of the mapper (with the default seed) assigns both members and
gives B a generation at least one above that of A.  In general the claim fails:
see the counterexample, where a member reached through a sibling edge
before its parent edge keeps the parent at the same generation. -/
theorem relmap_generation_monotonic_of_graded
    (members : List FamilyMember) (φ : String → Int)
    (hnd : (memberIds members).Nodup) (hg : Graded members φ)
    (a b : FamilyMember) (ha : a ∈ members) (hb : b ∈ members)
    (hpar : b.id ∈ a.relationships.parents) :
    ∃ ga gb, assignedGeneration members none a.id = some ga ∧
      assignedGeneration members none b.id = some gb ∧ ga + 1 ≤ gb := by
  obtain ⟨first, rest, rfl⟩ : ∃ f r, members = f :: r := by
    cases members with
    | nil => exact absurd ha (List.not_mem_nil a)
    | cons f r => exact ⟨f, r, rfl⟩
  cases hrun : runAssignAll (first :: rest) first with
  | none =>
    have h0 := runAssignAll_isSome (first :: rest) first
    rw [hrun] at h0
    exact absurd h0 (by simp)
  | some stF =>
    have hrun2 := hrun
    unfold runAssignAll at hrun2
    cases h1 : assignGenerationF (first :: rest) (assignFuel (first :: rest)) first 0
        ⟨[], [], []⟩ with
    | none => rw [h1] at hrun2; cases hrun2
    | some st1 =>
      rw [h1] at hrun2
      dsimp only at hrun2
      have hmono0 : MonoInv (first :: rest) ⟨[], [], []⟩ := by
        intro a' _ pid _ b' _ _ ga hga
        simp [lookupGen] at hga
      have hC1 := topCall_monoInv hg hnd (List.mem_cons_self first rest) h1 hmono0
      have hD := fold_monoInv hg hnd (first :: rest) st1 (fun x hx => hx) hC1.1 stF hrun2
      have haS := hD.2.2 a ha
      obtain ⟨ga, hga⟩ := Option.isSome_iff_exists.mp haS
      obtain ⟨gb, hgb, hineq⟩ := hD.1 a ha b.id hpar b hb rfl ga hga
      refine ⟨ga, gb, ?_, ?_, hineq⟩
      · show (match runAssignAll (first :: rest) ((none : Option FamilyMember).getD first) with
          | some st => lookupGen st a.id
          | none => none) = some ga
        rw [show (none : Option FamilyMember).getD first = first from rfl, hrun]
        exact hga
      · show (match runAssignAll (first :: rest) ((none : Option FamilyMember).getD first) with
          | some st => lookupGen st b.id
          | none => none) = some gb
        rw [show (none : Option FamilyMember).getD first = first from rfl, hrun]
        exact hgb

/-- Witness for the amended statement of C1: the graded two-member roster of a
child and its mother (potential 0 for the child and 1 for the mother);
the mapper assigns the mother a generation one above the child. -/
theorem relmap_generation_monotonic_of_graded_witness :
    ((memberIds [⟨"kid", "Kid", .other, ⟨["mom"], [], [], []⟩⟩,
        ⟨"mom", "Mom", .female, ⟨[], [], [], ["kid"]⟩⟩]).Nodup ∧
      Graded [⟨"kid", "Kid", .other, ⟨["mom"], [], [], []⟩⟩,
        ⟨"mom", "Mom", .female, ⟨[], [], [], ["kid"]⟩⟩]
        (fun id => if id = "mom" then 1 else 0) ∧
      ("mom" : String) ∈ (⟨"kid", "Kid", .other, ⟨["mom"], [], [], []⟩⟩ :
        FamilyMember).relationships.parents) ∧
    ∃ ga gb,
      assignedGeneration [⟨"kid", "Kid", .other, ⟨["mom"], [], [], []⟩⟩,
        ⟨"mom", "Mom", .female, ⟨[], [], [], ["kid"]⟩⟩] none "kid" = some ga ∧
      assignedGeneration [⟨"kid", "Kid", .other, ⟨["mom"], [], [], []⟩⟩,
        ⟨"mom", "Mom", .female, ⟨[], [], [], ["kid"]⟩⟩] none "mom" = some gb ∧
      ga + 1 ≤ gb := by
  refine ⟨⟨by decide, by decide, by decide⟩, ?_⟩
  exact relmap_generation_monotonic_of_graded _ (fun id => if id = "mom" then 1 else 0)
    (by decide) (by decide)
    ⟨"kid", "Kid", .other, ⟨["mom"], [], [], []⟩⟩
    ⟨"mom", "Mom", .female, ⟨[], [], [], ["kid"]⟩⟩
    (by decide) (by decide) (by decide)
